import Mathlib

/-!
# Trigram counter (`main.go`): shallow embedding and verified properties

The Go program reads whitespace separated words from its inputs, sends them
down a pipeline of goroutines in overlapping batches, strips non-word
characters, counts every 3-word window and prints the 100 most frequent ones.

Modelling conventions

* A channel that is written by one goroutine and drained by one reader is the
  list of the values sent on it, in sending order.
* `bufio.Scanner` with `bufio.ScanWords` is library code: the input of
  `readFromStream` is the sequence of tokens the scanner yields.
* Go `int` is 64 bit.  Counters (`curBatch`, the map values) only ever grow by
  one per token read, so they stay far below `2^63` on any input that can be
  stored; they are unbounded integers here.
* A Go run-time panic (slice bounds out of range) is the result `none`.
* `map[string]int` is an association list with pairwise distinct keys, kept in
  order of first insertion.  Go iterates a map in an unspecified order, so every
  statement about what `count` emits is phrased independently of the order.
* `merge` is the one place where several goroutines write to one channel.  It
  is a transition system over the atomic actions of its goroutines, and its
  properties are proved for every schedule of these actions.
-/

namespace NrProblem

/-! ## Data model -/

/-- The struct `wordSequenceCount` of `main.go`. -/
structure wordSequenceCount where
  words : String
  count : Int
deriving DecidableEq, Repr

/-! ## `readFromStream` -/

/-- The variables of the goroutine in `readFromStream`: the running batch
`curWords`, the counter `curBatch` and the batches sent on `ch` so far. -/
structure ReaderState where
  curWords : List String
  curBatch : Int
  ch : List (List String)
deriving DecidableEq, Repr

/-- One iteration of the `for s.Scan()` loop, `text` being `s.Text()`.
The slice expression `curWords[len(curWords)-2:]` panics when
`len(curWords) < 2`. -/
def readStep (batchSize : Int) (st : ReaderState) (text : String) : Option ReaderState :=
  if st.curBatch ≤ batchSize then
    some { curWords := st.curWords ++ [text], curBatch := st.curBatch + 1, ch := st.ch }
  else
    let curWords := st.curWords ++ [text]
    if 2 ≤ curWords.length then
      some { curWords := curWords.drop (curWords.length - 2), curBatch := 0,
             ch := st.ch ++ [curWords] }
    else
      none

/-- The `for s.Scan()` loop over the remaining tokens. -/
def readLoop (batchSize : Int) : ReaderState → List String → Option ReaderState
  | st, [] => some st
  | st, text :: rest =>
    match readStep batchSize st text with
    | none => none
    | some st' => readLoop batchSize st' rest

/-- The batches `readFromStream` sends on its channel before closing it, for a
source whose tokens are `tokens`; `none` when the goroutine panics. -/
def readFromStream (tokens : List String) (batchSize : Int) : Option (List (List String)) :=
  match readLoop batchSize { curWords := [], curBatch := 0, ch := [] } tokens with
  | none => none
  | some st => some (st.ch ++ [st.curWords])

/-! ## `filter`

`regexp` is library code.  The program only ever compiles the pattern `[^\w]`,
a single character class, so a pattern is the predicate telling which
characters it matches.  Go decodes the word as UTF-8 and `\w` is ASCII only:
every character outside `[0-9A-Za-z_]`, accented letters included, matches
`[^\w]`. -/

/-- The class `\w` of Go's `regexp` syntax: `[0-9A-Za-z_]`. -/
def isWordChar (c : Char) : Bool :=
  ('0' ≤ c && c ≤ '9') || ('A' ≤ c && c ≤ 'Z') || ('a' ≤ c && c ≤ 'z') || c == '_'

/-- The pattern `[^\w]` matches exactly one character, any that is not in `\w`. -/
def filterPattern (c : Char) : Bool := !isWordChar c

/-- The method `ReplaceAllString` for a pattern that is a single character class:
scanning left to right, every matching character is replaced by `repl`, the
others are copied. -/
def replaceAllString (re : Char → Bool) (repl : List Char) : List Char → List Char
  | [] => []
  | c :: rest =>
    if re c then repl ++ replaceAllString re repl rest
    else c :: replaceAllString re repl rest

/-- The expression `re.ReplaceAllString(word, "")` of `filter`. -/
def normalize (re : Char → Bool) (word : String) : String :=
  String.mk (replaceAllString re [] word.data)

/-- The inner loop `for i, word := range words`, which overwrites `words[i]`. -/
def filterWords (re : Char → Bool) (words : List String) : List String :=
  (List.range words.length).foldl
    (fun ws i => ws.set i (normalize re (ws.getD i ""))) words

/-- The batches `filter` sends on its channel, one per batch received. -/
def filter (re : Char → Bool) (wordsBatch : List (List String)) : List (List String) :=
  wordsBatch.map (filterWords re)

/-! ## `count` -/

/-- Lookup `c, ok := wscMap[k]`. -/
def mapGet : List (String × Int) → String → Option Int
  | [], _ => none
  | (k', v) :: m, k => if k' = k then some v else mapGet m k

/-- Assignment `wscMap[k] = v`. -/
def mapSet : List (String × Int) → String → Int → List (String × Int)
  | [], k, v => [(k, v)]
  | (k', v') :: m, k, v => if k' = k then (k', v) :: m else (k', v') :: mapSet m k v

/-- The key `fmt.Sprintf("%s %s %s", a, b, c)`. -/
def sprintf3 (a b c : String) : String := a ++ " " ++ b ++ " " ++ c

/-- The body of the loop `for i := 2; i < len(words); i++`. -/
def countStep (words : List String) (wscMap : List (String × Int)) (i : Nat) :
    List (String × Int) :=
  let wordsSeq := sprintf3 (words.getD (i - 2) "") (words.getD (i - 1) "") (words.getD i "")
  match mapGet wscMap wordsSeq with
  | some c => mapSet wscMap wordsSeq (c + 1)
  | none => mapSet wscMap wordsSeq 1

/-- The loop `for i := 2; i < len(words); i++` over one batch. -/
def countWords (wscMap : List (String × Int)) (words : List String) : List (String × Int) :=
  (List.range' 2 (words.length - 2)).foldl (countStep words) wscMap

/-- The map `wscMap` once the input channel is closed. -/
def countMap (wordsBatch : List (List String)) : List (String × Int) :=
  wordsBatch.foldl countWords []

/-- The values `count` sends on its channel (in one of the possible orders). -/
def count (wordsBatch : List (List String)) : List wordSequenceCount :=
  (countMap wordsBatch).map (fun kv => { words := kv.1, count := kv.2 })

/-! ## `topN` and `insertDescSort` -/

/-- The loop of Go's `sort.Search`: `for i < j { h := (i+j)/2; ... }`.
The interval `[i, j)` shrinks in every round, so `fuel ≥ j - i` rounds are
enough (`searchLoop_fuel`). -/
def searchLoop (f : Nat → Bool) : Nat → Nat → Nat → Nat
  | 0, i, _ => i
  | fuel + 1, i, j =>
    if i < j then
      let h := (i + j) / 2
      if !f h then searchLoop f fuel (h + 1) j else searchLoop f fuel i h
    else i

/-- Go's `sort.Search(n, f)`. -/
def Search (n : Nat) (f : Nat → Bool) : Nat := searchLoop f n 0 n

/-- The function `insertDescSort` of `main.go`. -/
def insertDescSort (wscArr : List wordSequenceCount) (wsc : wordSequenceCount) :
    List wordSequenceCount :=
  if wscArr.length = 0 then [wsc]
  else
    let i := Search wscArr.length
      (fun i => decide ((wscArr.getD i { words := "", count := 0 }).count < wsc.count))
    wscArr.take i ++ ([wsc] ++ wscArr.drop i)

/-- The body of the loop of `topN`.  `insertDescSort(arr, wsc)[:n]` is reached
only when `n ≤ len(arr)`, so its upper bound is in range and it panics exactly
when `n < 0`. -/
def topNStep (n : Int) (arr : List wordSequenceCount) (wsc : wordSequenceCount) :
    Option (List wordSequenceCount) :=
  if (arr.length : Int) < n then some (insertDescSort arr wsc)
  else if 0 ≤ n then some ((insertDescSort arr wsc).take n.toNat)
  else none

/-- The loop `for wsc := range wscBatch` of `topN`, started with `arr`. -/
def topNLoop (n : Int) : List wordSequenceCount → List wordSequenceCount →
    Option (List wordSequenceCount)
  | arr, [] => some arr
  | arr, wsc :: rest =>
    match topNStep n arr wsc with
    | none => none
    | some arr' => topNLoop n arr' rest

/-- The function `topN` of `main.go`; `none` when it panics. -/
def topN (n : Int) (wscBatch : List wordSequenceCount) : Option (List wordSequenceCount) :=
  topNLoop n [] wscBatch

/-! ## Auxiliary definitions

Reference counts taken directly from the wording of the properties
(`windowCount`, `pairCount`), the linear forms of the loops (`trigrams`, `bump`,
`insertScan`, `insertAll`) and the loop invariants of `readFromStream`. -/

/-- The key formed at index `i` of a batch. -/
def keyAt (words : List String) (i : Nat) : String :=
  sprintf3 (words.getD (i - 2) "") (words.getD (i - 1) "") (words.getD i "")

/-- The keys formed by the loop over one batch, in order. -/
def trigrams : List String → List String
  | a :: b :: c :: rest => sprintf3 a b c :: trigrams (b :: c :: rest)
  | _ => []

/-- The statement `wscMap[k]++` written out in `count`. -/
def bump (wscMap : List (String × Int)) (k : String) : List (String × Int) :=
  mapSet wscMap k ((mapGet wscMap k).getD 0 + 1)

/-- Number of windows `(T[i-2], T[i-1], T[i])`, `2 ≤ i < len(T)`, whose key is `k`. -/
def windowCount (T : List String) (k : String) : Nat :=
  ((List.range T.length).filter
    (fun i => decide (2 ≤ i) && decide (keyAt T i = k))).length

/-- Number of pairs `(batch, i)` with `2 ≤ i < len(batch)` whose key is `k`. -/
def pairCount (batches : List (List String)) (k : String) : Nat :=
  (batches.map (fun batch => windowCount batch k)).sum

/-- The last two elements of a list (the whole list when it is shorter):
the Go expression `l[len(l)-2:]` where it is defined. -/
def lastTwo (l : List String) : List String := l.drop (l.length - 2)

/-- The keys added by appending the token `t` to a batch ending in `l`. -/
def trigTail : List String → String → List String
  | [a, b], t => [sprintf3 a b t]
  | _, _ => []

/-- The counter `curBatch` never exceeds the length of the running batch. -/
def counterInv (st : ReaderState) : Prop := st.curBatch ≤ (st.curWords.length : Int)

/-- The windows of the batches sent so far and of the running batch are the
windows of the tokens consumed, and the running batch ends like them. -/
def windowInv (st : ReaderState) (P : List String) : Prop :=
  st.ch.flatMap trigrams ++ trigrams st.curWords = trigrams P ∧
    lastTwo st.curWords = lastTwo P

/-- Insertion by a linear scan: `wsc` goes just before the first entry whose
count is strictly smaller, at the end when there is none. -/
def insertScan (wsc : wordSequenceCount) : List wordSequenceCount → List wordSequenceCount
  | [] => [wsc]
  | e :: rest =>
    if e.count < wsc.count then wsc :: e :: rest else e :: insertScan wsc rest

/-- Non-increasing by count. -/
def Desc (arr : List wordSequenceCount) : Prop :=
  arr.Pairwise (fun a b => b.count ≤ a.count)

/-- All entries in arrival order, each put in place by `insertScan`: the array
`topN` would hold if it never truncated. -/
def insertAll (wscBatch : List wordSequenceCount) : List wordSequenceCount :=
  wscBatch.foldl (fun arr wsc => insertScan wsc arr) []

/-- Batch `b'` starts with the last two tokens of batch `b`. -/
def Overlap (b b' : List String) : Prop :=
  2 ≤ b.length ∧ b'.take 2 = b.drop (b.length - 2)

/-- The batches sent so far overlap pairwise and the running batch starts with
the last two tokens of the batch sent last. -/
def overlapInv (st : ReaderState) : Prop :=
  st.ch.Chain' Overlap ∧ ∀ x ∈ st.ch.getLast?, Overlap x st.curWords

/-- The sizes of the batches sent so far and of the running batch, for batch
size `B`. -/
def sizeInv (B : Nat) (st : ReaderState) : Prop :=
  0 ≤ st.curBatch ∧ st.curBatch ≤ (B : Int) + 1 ∧
    (st.curWords.length : Int) = st.curBatch + (if st.ch.length = 0 then 0 else 2) ∧
    st.ch.map List.length
      = (List.range st.ch.length).map (fun k => if k = 0 then B + 2 else B + 4)

/-- The stages `readFromStream`, `filter`, `count`, `topN` chained as in `main`
for one source, every channel delivering in sending order; `none` when a stage
panics. -/
def pipeline (tokens : List String) (batchSize n : Int) : Option (List wordSequenceCount) :=
  match readFromStream tokens batchSize with
  | none => none
  | some bs => topN n (count (filter filterPattern bs))

/-- The first batch followed by every later batch without its first 2 tokens. -/
def unbatch : List (List String) → List String
  | [] => []
  | first :: rest => first ++ rest.flatMap (List.drop 2)

/-- The batches sent so far and the running batch, put together by `unbatch`,
are the tokens consumed; after the first emission the running batch keeps its
two carried-over tokens. -/
def concatInv (st : ReaderState) (P : List String) : Prop :=
  unbatch (st.ch ++ [st.curWords]) = P ∧ (st.ch ≠ [] → 2 ≤ st.curWords.length)

/-- The order of the result of `topN`: `a` may stand before `b` when its count
is at least the count of `b`. -/
def countGe (a b : wordSequenceCount) : Bool := decide (b.count ≤ a.count)

/-- The stable descending-by-count sort of a stream taken in arrival order:
the library's stable merge sort with the comparison `countGe`. -/
def stableSortDesc (wscBatch : List wordSequenceCount) : List wordSequenceCount :=
  wscBatch.mergeSort countGe

/-- The entries of a list whose count is `c`, in the order of the list. -/
def withCount (c : Int) (arr : List wordSequenceCount) : List wordSequenceCount :=
  arr.filter (fun e => decide (e.count = c))

/-! ## `merge`

The goroutines of `merge` are run under an arbitrary scheduler: a run is a list
of events, each one the next atomic action of one goroutine (or of the producer
that feeds an input channel), and `none` where that action cannot happen in the
current state.  A channel is the queue of the values sent and not yet
received.  `out` is unbuffered, so a send on it is one event with the receive
of its reader, and `out` below is the sequence of values its readers got.
The channels in `cs` are pairwise distinct, as they are at both calls in
`main`, and each carries a finite stream that its producer closes after the
last value.  An event being possible means that the goroutine is not blocked
by the state of `merge`; that the reader of `out` and the producers take
their turn is up to them. -/

/-- Where the goroutine `output(c)` stands: at `for n := range c`, at
`out <- n` holding `n`, or past `wg.Done()`. -/
inductive OutputPc where
  | ranging : OutputPc
  | sending (n : List String) : OutputPc
  | done : OutputPc
deriving DecidableEq, Repr

/-- One input channel `c` of `merge`: the values its producer has still to send,
the values sent and not yet received, whether `c` is closed, and the program
point of the goroutine `output(c)`. -/
structure Lane where
  toSend : List (List String)
  buf : List (List String)
  closed : Bool
  pc : OutputPc
deriving DecidableEq, Repr

/-- The atomic actions on one input channel: its producer sends the next value,
its producer closes it, `output(c)` receives a value from it, `output(c)` sends
the value it holds on `out`, `output(c)` finds `c` closed and empty and calls
`wg.Done()`. -/
inductive LaneEvent where
  | produce : LaneEvent
  | closeIn : LaneEvent
  | recv : LaneEvent
  | send : LaneEvent
  | exit : LaneEvent
deriving DecidableEq, Repr

/-- The events of a run of `merge`: an action on input channel `i`, or the last
goroutine getting past `wg.Wait()` and closing `out`. -/
inductive MergeEvent where
  | lane (i : Nat) (k : LaneEvent) : MergeEvent
  | closeOut : MergeEvent
deriving DecidableEq, Repr

/-- The state of a run of `merge`: the input channels with their goroutines, the
counter of `wg`, the values received from `out` so far, whether `out` is closed,
and whether a goroutine has panicked (send on the closed `out`, negative
counter of `wg`). -/
structure MergeState where
  lanes : List Lane
  wg : Int
  out : List (List String)
  outClosed : Bool
  panicked : Bool
deriving DecidableEq, Repr

/-- The effect of an action on its channel: the new state of the channel and
the values sent on `out`; `none` when the action is not possible. -/
def laneStep : LaneEvent → Lane → Option (Lane × List (List String))
  | .produce, l =>
    match l.toSend, l.closed with
    | x :: rest, false => some ({ l with toSend := rest, buf := l.buf ++ [x] }, [])
    | _, _ => none
  | .closeIn, l =>
    match l.toSend, l.closed with
    | [], false => some ({ l with closed := true }, [])
    | _, _ => none
  | .recv, l =>
    match l.pc, l.buf with
    | .ranging, x :: rest => some ({ l with buf := rest, pc := .sending x }, [])
    | _, _ => none
  | .send, l =>
    match l.pc with
    | .sending x => some ({ l with pc := .ranging }, [x])
    | _ => none
  | .exit, l =>
    match l.pc, l.buf, l.closed with
    | .ranging, [], true => some ({ l with pc := .done }, [])
    | _, _, _ => none

/-- One event of a run of `merge`. -/
def mergeStep (s : MergeState) : MergeEvent → Option MergeState
  | .lane i k =>
    match s.lanes[i]? with
    | none => none
    | some l =>
      match laneStep k l with
      | none => none
      | some (l', sent) =>
        some { lanes := s.lanes.set i l',
               wg := if k = .exit then s.wg - 1 else s.wg,
               out := s.out ++ sent,
               outClosed := s.outClosed,
               panicked := s.panicked || (s.outClosed && !sent.isEmpty)
                 || (decide (k = .exit) && decide (s.wg ≤ 0)) }
  | .closeOut =>
    if s.wg = 0 ∧ s.outClosed = false then some { s with outClosed := true } else none

/-- A run: the events of the list one after the other. -/
def runMerge : MergeState → List MergeEvent → Option MergeState
  | s, [] => some s
  | s, e :: rest =>
    match mergeStep s e with
    | none => none
    | some s' => runMerge s' rest

/-- The state when `merge(cs...)` returns: `wg.Add(len(cs))` is done, every
`output(c)` is about to start, nothing has been sent; `inputs[i]` is the finite
stream of values that will come on `cs[i]`. -/
def mergeInit (inputs : List (List (List String))) : MergeState :=
  { lanes := inputs.map (fun items =>
      { toSend := items, buf := [], closed := false, pc := .ranging }),
    wg := inputs.length, out := [], outClosed := false, panicked := false }

/-- The values that are on their way through one input channel. -/
def laneItems (l : Lane) : List (List String) :=
  (match l.pc with
    | .sending x => [x]
    | _ => []) ++ l.buf ++ l.toSend

/-- One when `output(c)` has not yet called `wg.Done()`, zero afterwards. -/
def notDone (l : Lane) : Nat := if l.pc = .done then 0 else 1

/-- The number of events one input channel can still take part in. -/
def laneMeasure (l : Lane) : Nat :=
  3 * l.toSend.length + 2 * l.buf.length + (if l.closed then 0 else 1) +
    (match l.pc with
      | .ranging => 1
      | .sending _ => 2
      | .done => 0)

/-- The number of events a run can still have. -/
def mergeMeasure (s : MergeState) : Nat :=
  (s.lanes.map laneMeasure).sum + (if s.outClosed then 0 else 1)

/-- What holds of a channel at every moment: a closed channel gets no more
values, and `output(c)` is done only when `c` is closed and empty. -/
def laneOk (l : Lane) : Prop :=
  (l.closed = true → l.toSend = []) ∧ (l.pc = .done → l.closed = true ∧ l.buf = [])

/-- The invariant of the runs of `merge` on the streams `inputs`. -/
def mergeInv (inputs : List (List (List String))) (s : MergeState) : Prop :=
  s.panicked = false ∧
    (s.out ++ s.lanes.flatMap laneItems).Perm inputs.flatten ∧
    s.wg = ((s.lanes.map notDone).sum : Nat) ∧
    (∀ l ∈ s.lanes, laneOk l) ∧
    (s.outClosed = true → s.wg = 0)

/-- Number of pairs `(batch, i)`, `2 ≤ i < len(batch)`, with
`batch[i-2] + " " + batch[i-1] + " " + batch[i] = k`, in the words of the
property: the key is written out here and does not go through `sprintf3`. -/
def tripleCount (batches : List (List String)) (k : String) : Nat :=
  (batches.map (fun batch =>
    ((List.range batch.length).filter (fun i =>
      decide (2 ≤ i) &&
        decide (batch.getD (i - 2) "" ++ " " ++ batch.getD (i - 1) "" ++ " "
          ++ batch.getD i "" = k))).length)).sum

/-- The tokens consumed so far are `B + 2` for every batch sent plus the
`curBatch` tokens appended since, on top of the sizes of `sizeInv`. -/
def emitInv (B : Nat) (st : ReaderState) (P : List String) : Prop :=
  sizeInv B st ∧ (P.length : Int) = ((B : Int) + 2) * (st.ch.length : Int) + st.curBatch

/-! ## Lemmas and verified properties -/

theorem countStep_eq_bump (words : List String) (m : List (String × Int)) (i : Nat) :
    countStep words m i = bump m (keyAt words i) := by
  unfold countStep bump keyAt
  generalize sprintf3 (words.getD (i - 2) "") (words.getD (i - 1) "") (words.getD i "") = k
  cases h : mapGet m k <;> simp [h]

theorem keyAt_cons (a : String) (l : List String) (i : Nat) (hi : 2 ≤ i) :
    keyAt (a :: l) (i + 1) = keyAt l i := by
  obtain ⟨j, rfl⟩ : ∃ j, i = j + 2 := ⟨i - 2, by omega⟩
  simp [keyAt]

theorem map_keyAt_eq_trigrams : ∀ words : List String,
    (List.range' 2 (words.length - 2)).map (keyAt words) = trigrams words
  | [] => by simp [trigrams]
  | [_] => by simp [trigrams]
  | [_, _] => by simp [trigrams]
  | a :: b :: c :: rest => by
    have ih := map_keyAt_eq_trigrams (b :: c :: rest)
    have h1 : (a :: b :: c :: rest).length - 2 = rest.length + 1 := by simp
    have h2 : (b :: c :: rest).length - 2 = rest.length := by simp
    rw [h2] at ih
    rw [h1, List.range'_succ, List.map_cons, trigrams, ← ih]
    congr 1
    have h3 : List.range' (2 + 1) rest.length
        = (List.range' 2 rest.length).map (fun x => 1 + x) := by
      rw [List.map_add_range']
    rw [h3, List.map_map]
    apply List.map_congr_left
    intro i hi
    rw [List.mem_range'_1] at hi
    have := keyAt_cons a (b :: c :: rest) i hi.1
    simpa [Nat.add_comm] using this

theorem countWords_eq (m : List (String × Int)) (words : List String) :
    countWords m words = (trigrams words).foldl bump m := by
  rw [← map_keyAt_eq_trigrams, List.foldl_map]
  unfold countWords
  congr 1
  funext m i
  exact countStep_eq_bump words m i

theorem foldl_countWords (m : List (String × Int)) (batches : List (List String)) :
    batches.foldl countWords m = (batches.flatMap trigrams).foldl bump m := by
  induction batches generalizing m with
  | nil => rfl
  | cons b bs ih => simp [List.flatMap_cons, List.foldl_append, ih, countWords_eq]

theorem countMap_eq (batches : List (List String)) :
    countMap batches = (batches.flatMap trigrams).foldl bump [] :=
  foldl_countWords [] batches

theorem mapGet_mapSet (m : List (String × Int)) (k : String) (v : Int) (k' : String) :
    mapGet (mapSet m k v) k' = if k = k' then some v else mapGet m k' := by
  induction m with
  | nil => simp [mapSet, mapGet]
  | cons p m ih =>
    obtain ⟨a, b⟩ := p
    by_cases h : a = k
    · subst h
      by_cases h' : a = k' <;> simp [mapSet, mapGet, h']
    · by_cases h' : a = k'
      · subst h'
        simp [mapSet, mapGet, h, Ne.symm h]
      · simp [mapSet, mapGet, h, h', ih]

theorem keys_mapSet (m : List (String × Int)) (k : String) (v : Int) :
    (mapSet m k v).map Prod.fst =
      if k ∈ m.map Prod.fst then m.map Prod.fst else m.map Prod.fst ++ [k] := by
  induction m with
  | nil => simp [mapSet]
  | cons p m ih =>
    obtain ⟨a, b⟩ := p
    by_cases h : a = k
    · subst h
      simp [mapSet]
    · have h' : ¬ k = a := fun e => h e.symm
      by_cases hm : k ∈ m.map Prod.fst
      · rw [if_pos hm] at ih
        have : k ∈ ((a, b) :: m).map Prod.fst := by simp at hm ⊢; exact Or.inr hm
        rw [if_pos this]
        simp [mapSet, h, ih]
      · rw [if_neg hm] at ih
        have : ¬ k ∈ ((a, b) :: m).map Prod.fst := by
          simp at hm ⊢
          exact ⟨h', hm⟩
        rw [if_neg this]
        simp [mapSet, h, ih]

theorem nodup_keys_mapSet (m : List (String × Int)) (k : String) (v : Int)
    (h : (m.map Prod.fst).Nodup) : ((mapSet m k v).map Prod.fst).Nodup := by
  rw [keys_mapSet]
  split
  · exact h
  · next hk =>
    rw [List.nodup_append]
    refine ⟨h, List.nodup_singleton k, ?_⟩
    intro a ha hb
    simp at hb
    subst hb
    exact hk ha

theorem nodup_keys_foldl_bump (ks : List String) (m : List (String × Int))
    (h : (m.map Prod.fst).Nodup) : ((ks.foldl bump m).map Prod.fst).Nodup := by
  induction ks generalizing m with
  | nil => exact h
  | cons k ks ih => exact ih _ (nodup_keys_mapSet m k _ h)

theorem mapGet_foldl_bump (ks : List String) (m : List (String × Int)) (k : String) :
    mapGet (ks.foldl bump m) k =
      if ks.count k = 0 then mapGet m k
      else some ((mapGet m k).getD 0 + (ks.count k : Int)) := by
  induction ks generalizing m with
  | nil => simp
  | cons a ks ih =>
    rw [List.foldl_cons, ih, bump, mapGet_mapSet]
    by_cases h : a = k
    · subst h
      simp only [List.count_cons_self, if_true]
      by_cases h0 : ks.count a = 0
      · simp [h0]
      · simp [h0]
        ring
    · have hc : (a :: ks).count k = ks.count k := by
        rw [List.count_cons]; simp [h]
      simp only [hc, if_neg h]

theorem mem_iff_mapGet (m : List (String × Int)) (h : (m.map Prod.fst).Nodup)
    (k : String) (v : Int) : (k, v) ∈ m ↔ mapGet m k = some v := by
  induction m with
  | nil => simp [mapGet]
  | cons p m ih =>
    obtain ⟨a, b⟩ := p
    rw [List.map_cons, List.nodup_cons] at h
    by_cases hk : a = k
    · subst hk
      have : ∀ v, (a, v) ∉ m := fun v hv => h.1 (List.mem_map.2 ⟨(a, v), hv, rfl⟩)
      simp [mapGet, this, eq_comm]
    · have hk' : ¬ k = a := fun e => hk e.symm
      simp [mapGet, hk, hk', ih h.2]

theorem filter_ge_two_range (n : Nat) :
    (List.range n).filter (fun i => decide (2 ≤ i)) = List.range' 2 (n - 2) := by
  induction n with
  | zero => rfl
  | succ n ih =>
    rw [List.range_succ, List.filter_append, ih]
    by_cases h : 2 ≤ n
    · have : n + 1 - 2 = (n - 2) + 1 := by omega
      rw [this, List.range'_concat]
      simp [h]
    · have h1 : n + 1 - 2 = 0 := by omega
      have h2 : n - 2 = 0 := by omega
      simp [h1, h2, h]

theorem windowCount_eq (T : List String) (k : String) :
    windowCount T k = (trigrams T).count k := by
  unfold windowCount
  have hp : (fun i => decide (2 ≤ i) && decide (keyAt T i = k))
      = (fun i => decide (keyAt T i = k) && decide (2 ≤ i)) := by
    funext i; exact Bool.and_comm _ _
  rw [hp, ← List.filter_filter, filter_ge_two_range, ← map_keyAt_eq_trigrams,
    List.count_eq_countP, List.countP_map, List.countP_eq_length_filter]
  congr 1

theorem pairCount_eq (batches : List (List String)) (k : String) :
    pairCount batches k = (batches.flatMap trigrams).count k := by
  induction batches with
  | nil => rfl
  | cons b bs ih =>
    unfold pairCount at ih ⊢
    simp [List.flatMap_cons, List.count_append, ← ih, windowCount_eq]

theorem mem_countMap_iff (batches : List (List String)) (k : String) (c : Int) :
    (k, c) ∈ countMap batches ↔ (c = (pairCount batches k : Int) ∧ 1 ≤ pairCount batches k) := by
  have hn : ((countMap batches).map Prod.fst).Nodup := by
    rw [countMap_eq]; exact nodup_keys_foldl_bump _ [] (by simp)
  rw [mem_iff_mapGet _ hn, countMap_eq, mapGet_foldl_bump, pairCount_eq]
  by_cases h0 : (batches.flatMap trigrams).count k = 0
  · simp [h0, mapGet]
  · have h1 : 1 ≤ (batches.flatMap trigrams).count k := by omega
    simp only [if_neg h0, mapGet, Option.getD_none, zero_add, Option.some.injEq]
    constructor
    · intro h; exact ⟨h.symm, h1⟩
    · intro h; exact h.1.symm

theorem lastTwo_cons3 (a b c : String) (rest : List String) :
    lastTwo (a :: b :: c :: rest) = lastTwo (b :: c :: rest) := by
  simp [lastTwo]

theorem trigrams_append_singleton : ∀ (l : List String) (t : String),
    trigrams (l ++ [t]) = trigrams l ++ trigTail (lastTwo l) t
  | [], t => by simp [trigrams, lastTwo, trigTail]
  | [a], t => by simp [trigrams, lastTwo, trigTail]
  | [a, b], t => by simp [trigrams, lastTwo, trigTail]
  | a :: b :: c :: rest, t => by
    have ih := trigrams_append_singleton (b :: c :: rest) t
    rw [lastTwo_cons3]
    simp only [List.cons_append] at ih ⊢
    rw [trigrams, ih, trigrams, List.cons_append]

theorem lastTwo_length_le (l : List String) : (lastTwo l).length ≤ 2 := by
  simp [lastTwo]; omega

theorem trigrams_short (l : List String) (h : l.length ≤ 2) : trigrams l = [] := by
  match l, h with
  | [], _ => rfl
  | [_], _ => rfl
  | [_, _], _ => rfl
  | _ :: _ :: _ :: _, h => simp at h

theorem lastTwo_append_singleton (l : List String) (t : String) :
    lastTwo (l ++ [t]) = lastTwo (lastTwo l ++ [t]) := by
  unfold lastTwo
  by_cases h : l.length ≤ 2
  · have : l.length - 2 = 0 := by omega
    simp [this]
  · have h1 : (l ++ [t]).length - 2 = (l.length - 2) + 1 := by simp; omega
    have h2 : (List.drop (l.length - 2) l ++ [t]).length - 2 = 1 := by simp; omega
    rw [h1, h2, List.drop_append_of_le_length (by omega), List.drop_append_of_le_length (by simp; omega),
      List.drop_drop]

theorem lastTwo_idem (l : List String) : lastTwo (lastTwo l) = lastTwo l := by
  have h := lastTwo_length_le l
  have : (lastTwo l).length - 2 = 0 := by omega
  show List.drop ((lastTwo l).length - 2) (lastTwo l) = lastTwo l
  rw [this, List.drop_zero]

/-- Induction principle for the reading loop: a relation between the state and
the tokens consumed so far that every iteration preserves holds at the end. -/
theorem readLoop_induct (batchSize : Int) (I : ReaderState → List String → Prop)
    (hstep : ∀ st P t st', I st P → readStep batchSize st t = some st' → I st' (P ++ [t])) :
    ∀ (ts : List String) (st : ReaderState) (P : List String) (st' : ReaderState),
      I st P → readLoop batchSize st ts = some st' → I st' (P ++ ts) := by
  intro ts
  induction ts with
  | nil => intro st P st' hI h; simp [readLoop] at h; subst h; simpa using hI
  | cons t ts ih =>
    intro st P st' hI h
    rw [readLoop] at h
    cases hs : readStep batchSize st t with
    | none => rw [hs] at h; simp at h
    | some st1 =>
      rw [hs] at h
      have := ih st1 (P ++ [t]) st' (hstep st P t st1 hI hs) h
      simpa using this

theorem readStep_counterInv (batchSize : Int) (st : ReaderState) (t : String) (st' : ReaderState)
    (hI : counterInv st) (h : readStep batchSize st t = some st') : counterInv st' := by
  unfold readStep at h
  unfold counterInv at hI ⊢
  split at h
  · simp at h; subst h; simp; omega
  · simp only at h
    split at h
    · next h2 =>
      simp at h; subst h
      simp
    · simp at h

theorem readStep_isSome (batchSize : Int) (hB : 0 ≤ batchSize) (st : ReaderState) (t : String)
    (hI : counterInv st) : ∃ st', readStep batchSize st t = some st' := by
  unfold readStep
  unfold counterInv at hI
  split
  · exact ⟨_, rfl⟩
  · next h =>
    have : 2 ≤ (st.curWords ++ [t]).length := by simp; omega
    simp only [this, if_true]
    exact ⟨_, rfl⟩

theorem readLoop_isSome (batchSize : Int) (hB : 0 ≤ batchSize) :
    ∀ (ts : List String) (st : ReaderState), counterInv st →
      ∃ st', readLoop batchSize st ts = some st' := by
  intro ts
  induction ts with
  | nil => intro st _; exact ⟨st, rfl⟩
  | cons t ts ih =>
    intro st hI
    obtain ⟨st1, h1⟩ := readStep_isSome batchSize hB st t hI
    obtain ⟨st2, h2⟩ := ih st1 (readStep_counterInv batchSize st t st1 hI h1)
    exact ⟨st2, by rw [readLoop, h1]; exact h2⟩

theorem readFromStream_isSome (tokens : List String) (batchSize : Int) (hB : 0 ≤ batchSize) :
    ∃ bs, readFromStream tokens batchSize = some bs := by
  obtain ⟨st, h⟩ := readLoop_isSome batchSize hB tokens
    { curWords := [], curBatch := 0, ch := [] } (by simp [counterInv])
  exact ⟨_, by rw [readFromStream, h]⟩

theorem readStep_windowInv (batchSize : Int) (st : ReaderState) (P : List String) (t : String)
    (st' : ReaderState) (hI : windowInv st P) (h : readStep batchSize st t = some st') :
    windowInv st' (P ++ [t]) := by
  obtain ⟨h1, h2⟩ := hI
  have key : st.ch.flatMap trigrams ++ trigrams (st.curWords ++ [t]) = trigrams (P ++ [t]) := by
    rw [trigrams_append_singleton, trigrams_append_singleton, ← List.append_assoc, h1, h2]
  have keyL : lastTwo (st.curWords ++ [t]) = lastTwo (P ++ [t]) := by
    rw [lastTwo_append_singleton, h2, ← lastTwo_append_singleton]
  unfold readStep at h
  split at h
  · simp at h; subst h
    exact ⟨key, keyL⟩
  · simp only at h
    split at h
    · simp only [Option.some.injEq] at h; subst h
      constructor
      · show (st.ch ++ [st.curWords ++ [t]]).flatMap trigrams ++ trigrams (lastTwo (st.curWords ++ [t])) = _
        rw [trigrams_short _ (lastTwo_length_le _), List.append_nil, List.flatMap_append]
        simpa using key
      · show lastTwo (lastTwo (st.curWords ++ [t])) = _
        rw [lastTwo_idem, keyL]
    · simp at h

theorem readFromStream_trigrams (tokens : List String) (batchSize : Int)
    (bs : List (List String)) (h : readFromStream tokens batchSize = some bs) :
    bs.flatMap trigrams = trigrams tokens := by
  unfold readFromStream at h
  cases hl : readLoop batchSize { curWords := [], curBatch := 0, ch := [] } tokens with
  | none => rw [hl] at h; simp at h
  | some st =>
    rw [hl] at h
    simp at h
    subst h
    have := readLoop_induct batchSize windowInv (readStep_windowInv batchSize) tokens _ [] st
      (by simp [windowInv]) hl
    simpa [List.flatMap_append] using this.1

theorem nodup_keys_countMap (batches : List (List String)) :
    ((countMap batches).map Prod.fst).Nodup := by
  rw [countMap_eq]; exact nodup_keys_foldl_bump _ [] (by simp)

theorem mem_count_iff (batches : List (List String)) (k : String) (c : Int) :
    ({ words := k, count := c } : wordSequenceCount) ∈ count batches ↔
      (c = (pairCount batches k : Int) ∧ 1 ≤ pairCount batches k) := by
  rw [← mem_countMap_iff]
  unfold count
  rw [List.mem_map]
  constructor
  · rintro ⟨⟨a, b⟩, hm, he⟩
    simp only [wordSequenceCount.mk.injEq] at he
    obtain ⟨rfl, rfl⟩ := he
    exact hm
  · intro hm
    exact ⟨(k, c), hm, rfl⟩

theorem words_count (batches : List (List String)) :
    (count batches).map (fun e => e.words) = (countMap batches).map Prod.fst := by
  unfold count
  rw [List.map_map]
  rfl

theorem pairCount_perm (bs bs' : List (List String)) (h : bs.Perm bs') (k : String) :
    pairCount bs k = pairCount bs' k := by
  unfold pairCount
  exact (h.map _).sum_eq

theorem pairCount_singleton (T : List String) (k : String) :
    pairCount [T] k = windowCount T k := by
  simp [pairCount]

theorem pairCount_readFromStream (T : List String) (B : Int) (bs : List (List String))
    (h : readFromStream T B = some bs) (k : String) : pairCount bs k = windowCount T k := by
  rw [pairCount_eq, windowCount_eq, readFromStream_trigrams T B bs h]

/-- C1 (trigram completeness): for every batch size `B ≥ 0` (in particular `B ≥ 3`) and every
token sequence `T` (in particular of length `≥ 3`), `readFromStream` returns batches, and `count`
over these batches emits pairwise distinct keys and emits the pair `(k, c)` exactly when `c` is
the number of windows `(T[i-2], T[i-1], T[i])`, `2 ≤ i < len(T)`, with key `k` and that number is
at least one; so the mapping is the one of the direct count over `T`, whatever `B` is. -/
theorem trigram_completeness (T : List String) (B : Int) (hB : 0 ≤ B) :
    ∃ bs, readFromStream T B = some bs ∧
      ((count bs).map (fun e => e.words)).Nodup ∧
      (∀ k c, ({ words := k, count := c } : wordSequenceCount) ∈ count bs ↔
        (c = (windowCount T k : Int) ∧ 1 ≤ windowCount T k)) ∧
      countMap bs = countMap [T] := by
  obtain ⟨bs, h⟩ := readFromStream_isSome T B hB
  refine ⟨bs, h, ?_, ?_, ?_⟩
  · rw [words_count]; exact nodup_keys_countMap bs
  · intro k c
    rw [mem_count_iff, pairCount_readFromStream T B bs h]
  · rw [countMap_eq, countMap_eq, readFromStream_trigrams T B bs h]
    simp

theorem trigram_completeness_witness :
    ∃ bs, readFromStream ["x", "y", "z", "w", "v", "u"] 3 = some bs ∧
      ((count bs).map (fun e => e.words)).Nodup ∧
      (∀ k c, ({ words := k, count := c } : wordSequenceCount) ∈ count bs ↔
        (c = (windowCount ["x", "y", "z", "w", "v", "u"] k : Int) ∧
          1 ≤ windowCount ["x", "y", "z", "w", "v", "u"] k)) ∧
      countMap bs = countMap [["x", "y", "z", "w", "v", "u"]] :=
  trigram_completeness ["x", "y", "z", "w", "v", "u"] 3 (by decide)

theorem tripleCount_eq_pairCount (batches : List (List String)) (k : String) :
    tripleCount batches k = pairCount batches k := rfl

/-- C3 (aggregator counting): the pairs emitted by `count` have pairwise distinct keys, and
the pair `(k, c)` is emitted exactly when `c` is the number of pairs `(batch, i)`,
`2 ≤ i < len(batch)`, with `batch[i-2] + " " + batch[i-1] + " " + batch[i] = k` (the key
written out, not taken from the model of `count`) and that number is at least one; on the
inputs of `Test_count` and of the spec: `a a a a` gives `"a a a"` twice, two batches `a b c`
give `"a b c"` twice, `a b c d` gives `"a b c"` and `"b c d"` once each. -/
theorem count_emits_window_counts (batches : List (List String)) :
    ((count batches).map (fun e => e.words)).Nodup ∧
      (∀ k c, ({ words := k, count := c } : wordSequenceCount) ∈ count batches ↔
        (c = (tripleCount batches k : Int) ∧ 1 ≤ tripleCount batches k)) ∧
      count [["a", "a", "a", "a"]] = [{ words := "a a a", count := 2 }] ∧
      count [["a", "b", "c"], ["a", "b", "c"]] = [{ words := "a b c", count := 2 }] ∧
      (count [["a", "b", "c", "d"]]).Perm
        [{ words := "a b c", count := 1 }, { words := "b c d", count := 1 }] ∧
      tripleCount [["x", "", "z"], ["", "x", "z"]] "x  z" = 1 ∧
      tripleCount [["x", "", "z"], ["", "x", "z"]] " x z" = 1 := by
  have h4 : count [["a", "b", "c", "d"]]
      = [{ words := "a b c", count := 1 }, { words := "b c d", count := 1 }] := by decide
  refine ⟨by rw [words_count]; exact nodup_keys_countMap batches, ?_, by decide, by decide,
    by rw [h4], by decide, by decide⟩
  intro k c
  rw [tripleCount_eq_pairCount]
  exact mem_count_iff batches k c

/-- C9 (order independence): permuting the list of batches changes neither the value the map
of `count` holds for any key nor the collection of pairs `count` emits. -/
theorem count_perm (bs bs' : List (List String)) (h : bs.Perm bs') :
    (∀ k, mapGet (countMap bs) k = mapGet (countMap bs') k) ∧ (count bs).Perm (count bs') := by
  constructor
  · intro k
    rw [countMap_eq, countMap_eq, mapGet_foldl_bump, mapGet_foldl_bump,
      ← pairCount_eq, ← pairCount_eq, pairCount_perm bs bs' h k]
  · have n1 : (count bs).Nodup :=
      List.Nodup.of_map _ (by rw [words_count]; exact nodup_keys_countMap bs)
    have n2 : (count bs').Nodup :=
      List.Nodup.of_map _ (by rw [words_count]; exact nodup_keys_countMap bs')
    rw [List.perm_ext_iff_of_nodup n1 n2]
    rintro ⟨k, c⟩
    rw [mem_count_iff, mem_count_iff, pairCount_perm bs bs' h k]

theorem count_perm_witness :
    (∀ k, mapGet (countMap [["a", "b", "c", "d"], ["b", "c", "d"]]) k
        = mapGet (countMap [["b", "c", "d"], ["a", "b", "c", "d"]]) k) ∧
      (count [["a", "b", "c", "d"], ["b", "c", "d"]]).Perm
        (count [["b", "c", "d"], ["a", "b", "c", "d"]]) :=
  count_perm _ _ (List.Perm.swap _ _ _)

theorem searchLoop_spec (f : Nat → Bool) (n : Nat)
    (mono : ∀ a b, a ≤ b → b < n → f a = true → f b = true) :
    ∀ (fuel i j : Nat), j - i ≤ fuel → i ≤ j → j ≤ n →
      (∀ a, a < i → f a = false) → (∀ b, j ≤ b → b < n → f b = true) →
      i ≤ searchLoop f fuel i j ∧ searchLoop f fuel i j ≤ j ∧
        (∀ a, a < searchLoop f fuel i j → f a = false) ∧
        (∀ b, searchLoop f fuel i j ≤ b → b < n → f b = true) := by
  intro fuel
  induction fuel with
  | zero =>
    intro i j hf hij hjn hlo hhi
    have : i = j := by omega
    subst this
    simp only [searchLoop]
    exact ⟨le_refl _, le_refl _, hlo, hhi⟩
  | succ fuel ih =>
    intro i j hf hij hjn hlo hhi
    rw [searchLoop]
    by_cases hlt : i < j
    · simp only [hlt, if_true]
      have h1 : i ≤ (i + j) / 2 := by omega
      have h2 : (i + j) / 2 < j := by omega
      cases hfh : f ((i + j) / 2) with
      | false =>
        simp only [Bool.not_false, if_true]
        have hlo' : ∀ a, a < (i + j) / 2 + 1 → f a = false := by
          intro a ha
          cases hfa : f a with
          | false => rfl
          | true =>
            have := mono a ((i + j) / 2) (by omega) (by omega) hfa
            rw [hfh] at this
            exact absurd this (by simp)
        obtain ⟨r1, r2, r3, r4⟩ := ih ((i + j) / 2 + 1) j (by omega) (by omega) hjn hlo' hhi
        exact ⟨by omega, r2, r3, r4⟩
      | true =>
        simp only [Bool.not_true, Bool.false_eq_true, if_false]
        have hhi' : ∀ b, (i + j) / 2 ≤ b → b < n → f b = true := by
          intro b hb hbn
          exact mono _ b hb hbn hfh
        obtain ⟨r1, r2, r3, r4⟩ := ih i ((i + j) / 2) (by omega) h1 (by omega) hlo hhi'
        exact ⟨r1, by omega, r3, r4⟩
    · simp only [hlt, if_false]
      have : i = j := by omega
      subst this
      exact ⟨le_refl _, le_refl _, hlo, hhi⟩

/-- More fuel than the width of the interval does not change the result of the loop. -/
theorem searchLoop_fuel (f : Nat → Bool) :
    ∀ (fuel extra i j : Nat), j - i ≤ fuel →
      searchLoop f (fuel + extra) i j = searchLoop f fuel i j := by
  intro fuel
  induction fuel with
  | zero =>
    intro extra i j hf
    have hij : ¬ i < j := by omega
    cases extra with
    | zero => rfl
    | succ e => simp [searchLoop, hij]
  | succ fuel ih =>
    intro extra i j hf
    have : fuel + 1 + extra = (fuel + extra) + 1 := by omega
    rw [this, searchLoop, searchLoop]
    by_cases hlt : i < j
    · simp only [hlt, if_true]
      rw [ih extra _ _ (by omega), ih extra _ _ (by omega)]
    · simp only [hlt, if_false]

theorem Search_spec (n : Nat) (f : Nat → Bool)
    (mono : ∀ a b, a ≤ b → b < n → f a = true → f b = true) :
    Search n f ≤ n ∧ (∀ a, a < Search n f → f a = false) ∧
      (∀ b, Search n f ≤ b → b < n → f b = true) := by
  obtain ⟨_, r2, r3, r4⟩ := searchLoop_spec f n mono n 0 n (by omega) (by omega) (le_refl _)
    (by intro a ha; omega) (by intro b hb hbn; omega)
  exact ⟨r2, r3, r4⟩

theorem insertScan_eq_take_drop (x : wordSequenceCount) (arr : List wordSequenceCount) :
    insertScan x arr =
      arr.take (arr.findIdx (fun e => decide (e.count < x.count))) ++
        ([x] ++ arr.drop (arr.findIdx (fun e => decide (e.count < x.count)))) := by
  induction arr with
  | nil => simp [insertScan]
  | cons e rest ih =>
    rw [insertScan, List.findIdx_cons]
    by_cases h : e.count < x.count
    · simp [h]
    · simp [h, ih]

theorem Desc_getD_mono (arr : List wordSequenceCount) (hs : Desc arr) (c : Int) (a b : Nat)
    (hab : a ≤ b) (hb : b < arr.length)
    (ha : decide ((arr.getD a { words := "", count := 0 }).count < c) = true) :
    decide ((arr.getD b { words := "", count := 0 }).count < c) = true := by
  rcases Nat.eq_or_lt_of_le hab with rfl | hlt
  · exact ha
  · have hp := List.pairwise_iff_getElem.1 hs a b (by omega) hb hlt
    have ha' : a < arr.length := by omega
    simp only [List.getD_eq_getElem?_getD, List.getElem?_eq_getElem ha', List.getElem?_eq_getElem hb,
      Option.getD_some, decide_eq_true_eq] at ha ⊢
    omega

theorem Search_eq_findIdx (arr : List wordSequenceCount) (hs : Desc arr) (c : Int) :
    Search arr.length (fun i => decide ((arr.getD i { words := "", count := 0 }).count < c))
      = arr.findIdx (fun e => decide (e.count < c)) := by
  obtain ⟨r1, r2, r3⟩ := Search_spec arr.length _ (Desc_getD_mono arr hs c)
  generalize Search arr.length
    (fun i => decide ((arr.getD i { words := "", count := 0 }).count < c)) = r at r1 r2 r3
  rcases Nat.eq_or_lt_of_le r1 with rfl | hlt
  · symm
    rw [List.findIdx_eq_length]
    intro e he
    obtain ⟨i, hi, rfl⟩ := List.getElem_of_mem he
    have := r2 i hi
    simpa [List.getD_eq_getElem?_getD, List.getElem?_eq_getElem hi] using this
  · symm
    rw [List.findIdx_eq hlt]
    constructor
    · have := r3 r (le_refl _) hlt
      simpa [List.getD_eq_getElem?_getD, List.getElem?_eq_getElem hlt] using this
    · intro j hj
      have hj' : j < arr.length := by omega
      have := r2 j hj
      simpa [List.getD_eq_getElem?_getD, List.getElem?_eq_getElem hj'] using this

theorem insertDescSort_eq_insertScan (arr : List wordSequenceCount) (hs : Desc arr)
    (x : wordSequenceCount) : insertDescSort arr x = insertScan x arr := by
  unfold insertDescSort
  split
  · next h =>
    have : arr = [] := List.length_eq_zero.1 h
    subst this
    rfl
  · simp only
    rw [Search_eq_findIdx arr hs x.count, insertScan_eq_take_drop]

theorem insertScan_length (x : wordSequenceCount) (arr : List wordSequenceCount) :
    (insertScan x arr).length = arr.length + 1 := by
  induction arr with
  | nil => rfl
  | cons e rest ih =>
    rw [insertScan]
    split <;> simp [ih]

theorem insertScan_perm (x : wordSequenceCount) (arr : List wordSequenceCount) :
    (insertScan x arr).Perm (x :: arr) := by
  induction arr with
  | nil => exact List.Perm.refl _
  | cons e rest ih =>
    rw [insertScan]
    split
    · exact List.Perm.refl _
    · exact (List.Perm.cons e ih).trans (List.Perm.swap x e rest)

theorem insertScan_desc (x : wordSequenceCount) (arr : List wordSequenceCount) (hs : Desc arr) :
    Desc (insertScan x arr) := by
  induction arr with
  | nil => simp [insertScan, Desc]
  | cons e rest ih =>
    unfold Desc at hs ih ⊢
    rw [List.pairwise_cons] at hs
    rw [insertScan]
    split
    · next h =>
      rw [List.pairwise_cons]
      refine ⟨?_, List.pairwise_cons.2 hs⟩
      intro b hb
      rcases List.mem_cons.1 hb with rfl | hb
      · omega
      · have := hs.1 b hb
        omega
    · next h =>
      rw [List.pairwise_cons]
      refine ⟨?_, ih hs.2⟩
      intro b hb
      rcases List.mem_cons.1 ((insertScan_perm x rest).mem_iff.1 hb) with rfl | hb
      · omega
      · exact hs.1 b hb

theorem insertScan_take (x : wordSequenceCount) :
    ∀ (arr : List wordSequenceCount) (n : Nat),
      (insertScan x (arr.take n)).take n = (insertScan x arr).take n := by
  intro arr
  induction arr with
  | nil => intro n; simp
  | cons e rest ih =>
    intro n
    cases n with
    | zero => simp
    | succ n =>
      rw [List.take_succ_cons, insertScan, insertScan]
      split
      · simp only [List.take_succ_cons]
        congr 1
        cases n with
        | zero => simp
        | succ m => simp [List.take_take]
      · simp only [List.take_succ_cons]
        rw [ih n]

theorem Desc_take (arr : List wordSequenceCount) (hs : Desc arr) (n : Nat) : Desc (arr.take n) :=
  List.Pairwise.sublist (List.take_sublist n arr) hs

theorem topNStep_nat (N : Nat) (arr : List wordSequenceCount) (hs : Desc arr)
    (x : wordSequenceCount) :
    topNStep (N : Int) arr x = some ((insertScan x arr).take N) := by
  unfold topNStep
  rw [insertDescSort_eq_insertScan arr hs]
  split
  · next h =>
    have : (insertScan x arr).length ≤ N := by rw [insertScan_length]; omega
    rw [List.take_of_length_le this]
  · simp

theorem topNLoop_take (N : Nat) :
    ∀ (wscBatch full : List wordSequenceCount), Desc full →
      topNLoop (N : Int) (full.take N) wscBatch
        = some ((wscBatch.foldl (fun arr wsc => insertScan wsc arr) full).take N) := by
  intro wscBatch
  induction wscBatch with
  | nil => intro full _; rfl
  | cons x rest ih =>
    intro full hs
    rw [topNLoop, topNStep_nat N _ (Desc_take full hs N), insertScan_take]
    exact ih (insertScan x full) (insertScan_desc x full hs)

theorem topN_eq_take (N : Nat) (wscBatch : List wordSequenceCount) :
    topN (N : Int) wscBatch = some ((insertAll wscBatch).take N) := by
  have := topNLoop_take N wscBatch [] (by simp [Desc])
  simpa [topN, insertAll] using this

theorem foldl_insertScan_desc (wscBatch : List wordSequenceCount) :
    ∀ full, Desc full → Desc (wscBatch.foldl (fun arr wsc => insertScan wsc arr) full) := by
  induction wscBatch with
  | nil => intro full h; exact h
  | cons x rest ih => intro full h; exact ih _ (insertScan_desc x full h)

theorem foldl_insertScan_perm (wscBatch : List wordSequenceCount) :
    ∀ full, (wscBatch.foldl (fun arr wsc => insertScan wsc arr) full).Perm (full ++ wscBatch) := by
  induction wscBatch with
  | nil => intro full; simp
  | cons x rest ih =>
    intro full
    refine (ih (insertScan x full)).trans ?_
    have h1 : (insertScan x full ++ rest).Perm ((x :: full) ++ rest) :=
      List.Perm.append_right rest (insertScan_perm x full)
    refine h1.trans ?_
    simpa using (@List.perm_middle _ x full rest).symm

theorem insertAll_desc (wscBatch : List wordSequenceCount) : Desc (insertAll wscBatch) :=
  foldl_insertScan_desc wscBatch [] (by simp [Desc])

theorem insertAll_perm (wscBatch : List wordSequenceCount) :
    (insertAll wscBatch).Perm wscBatch := by
  simpa [insertAll] using foldl_insertScan_perm wscBatch []

theorem insertAll_counts (wscBatch : List wordSequenceCount) :
    (insertAll wscBatch).map (fun e => e.count)
      = (wscBatch.map (fun e => e.count)).insertionSort (fun a b => a ≥ b) := by
  apply List.eq_of_perm_of_sorted (r := fun a b : Int => a ≥ b)
  · exact ((insertAll_perm wscBatch).map _).trans (List.perm_insertionSort _ _).symm
  · have := insertAll_desc wscBatch
    unfold Desc at this
    exact List.pairwise_map.2 this
  · exact List.sorted_insertionSort _ _

theorem topNLoop_append (n : Int) :
    ∀ (p q arr : List wordSequenceCount),
      topNLoop n arr (p ++ q) = (topNLoop n arr p).bind (fun arr' => topNLoop n arr' q) := by
  intro p
  induction p with
  | nil => intro q arr; rfl
  | cons x rest ih =>
    intro q arr
    rw [List.cons_append, topNLoop, topNLoop]
    cases topNStep n arr x with
    | none => rfl
    | some a => exact ih q a

theorem not_of_mem_take_findIdx (p : wordSequenceCount → Bool) (arr : List wordSequenceCount) :
    ∀ e ∈ arr.take (arr.findIdx p), p e = false := by
  induction arr with
  | nil => simp
  | cons a rest ih =>
    intro e he
    rw [List.findIdx_cons] at he
    cases hp : p a with
    | true => simp [hp] at he
    | false =>
      simp only [hp, cond_false, List.take_succ_cons, List.mem_cons] at he
      rcases he with rfl | he
      · exact hp
      · exact ih e he

theorem lt_of_mem_drop_findIdx (c : Int) (arr : List wordSequenceCount) (hs : Desc arr) :
    ∀ e ∈ arr.drop (arr.findIdx (fun e => decide (e.count < c))), e.count < c := by
  induction arr with
  | nil => simp
  | cons a rest ih =>
    intro e he
    unfold Desc at hs ih
    rw [List.pairwise_cons] at hs
    rw [List.findIdx_cons] at he
    by_cases hp : a.count < c
    · simp only [hp, decide_True, cond_true, List.drop_zero, List.mem_cons] at he
      rcases he with rfl | he
      · exact hp
      · have := hs.1 e he
        omega
    · simp only [hp, decide_False, cond_false, List.drop_succ_cons] at he
      exact ih hs.2 e he

/-- C2 (top-N correctness): for `N ≤ len(stream)` (the keys need not even be distinct), `topN`
returns exactly `N` entries, their counts in order are the first `N` counts of the input sorted
descending, and the entries are entries of the input, none used more often than it occurs. -/
theorem topN_correct (N : Nat) (wscBatch : List wordSequenceCount) (hN : N ≤ wscBatch.length) :
    ∃ arr, topN (N : Int) wscBatch = some arr ∧ arr.length = N ∧
      arr.map (fun e => e.count)
        = ((wscBatch.map (fun e => e.count)).insertionSort (fun a b => a ≥ b)).take N ∧
      arr.Subperm wscBatch ∧ ∀ e ∈ arr, e ∈ wscBatch := by
  refine ⟨(insertAll wscBatch).take N, topN_eq_take N wscBatch, ?_, ?_, ?_, ?_⟩
  · rw [List.length_take, (insertAll_perm wscBatch).length_eq]
    omega
  · rw [← insertAll_counts, List.map_take]
  · exact (List.take_sublist _ _).subperm.trans (insertAll_perm wscBatch).subperm
  · intro e he
    exact (insertAll_perm wscBatch).mem_iff.1 (List.mem_of_mem_take he)

theorem topN_correct_witness :
    1 ≤ [({ words := "a b c", count := 2 } : wordSequenceCount),
      { words := "c b a", count := 1 }].length ∧
    ∃ arr, topN ((1 : Nat) : Int) [{ words := "a b c", count := 2 }, { words := "c b a", count := 1 }]
        = some arr ∧ arr.length = 1 ∧
      arr.map (fun e => e.count)
        = ((([{ words := "a b c", count := 2 }, { words := "c b a", count := 1 }] :
            List wordSequenceCount).map (fun e => e.count)).insertionSort
              (fun a b => a ≥ b)).take 1 ∧
      arr.Subperm [{ words := "a b c", count := 2 }, { words := "c b a", count := 1 }] ∧
      ∀ e ∈ arr, e ∈ [({ words := "a b c", count := 2 } : wordSequenceCount),
        { words := "c b a", count := 1 }] :=
  ⟨by decide, topN_correct 1 _ (by decide)⟩

/-- C4 (top-N monotonicity): for every `N ≥ 0`, every stream and every `k`, after the first `k`
elements `topN` holds a sequence `arr` that is non-increasing by count and has length at most
`N`, and it goes on from `arr` with the remaining elements. -/
theorem topN_invariant (N : Nat) (wscBatch : List wordSequenceCount) (k : Nat) :
    ∃ arr, topN (N : Int) (wscBatch.take k) = some arr ∧
      arr.Pairwise (fun a b => b.count ≤ a.count) ∧ arr.length ≤ N ∧
      topN (N : Int) wscBatch = topNLoop (N : Int) arr (wscBatch.drop k) := by
  have h := topN_eq_take N (wscBatch.take k)
  refine ⟨_, h, Desc_take _ (insertAll_desc _) N, ?_, ?_⟩
  · rw [List.length_take]; omega
  · have h2 := topNLoop_append (N : Int) (wscBatch.take k) (wscBatch.drop k) []
    rw [List.take_append_drop] at h2
    unfold topN at h ⊢
    rw [h2, h]
    rfl

/-- C10 (sorted insertion): for `arr` non-increasing by count, `insertDescSort(arr, x)` is
`arr[:i] ++ [x] ++ arr[i:]` where `i` is the first index whose count is strictly less than
`x.count` (`len(arr)` if none: no entry before `i` has a smaller count, every entry from `i` on
has); the result has `len(arr)+1` entries, is a permutation of `arr` plus `x`, is non-increasing
by count, and every entry right of `x` has a strictly smaller count, so `x` comes after all
entries with an equal count. -/
theorem insertDescSort_sorted (arr : List wordSequenceCount) (x : wordSequenceCount)
    (hs : arr.Pairwise (fun a b => b.count ≤ a.count)) :
    insertDescSort arr x
        = arr.take (arr.findIdx (fun e => decide (e.count < x.count))) ++ [x]
          ++ arr.drop (arr.findIdx (fun e => decide (e.count < x.count))) ∧
      arr.findIdx (fun e => decide (e.count < x.count)) ≤ arr.length ∧
      (∀ e ∈ arr.take (arr.findIdx (fun e => decide (e.count < x.count))), x.count ≤ e.count) ∧
      (∀ e ∈ arr.drop (arr.findIdx (fun e => decide (e.count < x.count))), e.count < x.count) ∧
      (insertDescSort arr x).length = arr.length + 1 ∧
      (insertDescSort arr x).Perm (x :: arr) ∧
      (insertDescSort arr x).Pairwise (fun a b => b.count ≤ a.count) := by
  have he := insertDescSort_eq_insertScan arr hs x
  refine ⟨?_, List.findIdx_le_length _, ?_, lt_of_mem_drop_findIdx x.count arr hs, ?_, ?_, ?_⟩
  · rw [he, insertScan_eq_take_drop, List.append_assoc]
  · intro e hm
    have := not_of_mem_take_findIdx _ arr e hm
    simpa using this
  · rw [he, insertScan_length]
  · rw [he]; exact insertScan_perm x arr
  · rw [he]; exact insertScan_desc x arr hs

theorem insertDescSort_sorted_witness :
    ([{ words := "p", count := 3 }, { words := "q", count := 2 }, { words := "r", count := 2 },
      { words := "s", count := 1 }] : List wordSequenceCount).Pairwise
        (fun a b => b.count ≤ a.count) ∧
    insertDescSort [{ words := "p", count := 3 }, { words := "q", count := 2 },
        { words := "r", count := 2 }, { words := "s", count := 1 }] { words := "x", count := 2 }
      = [{ words := "p", count := 3 }, { words := "q", count := 2 }, { words := "r", count := 2 },
          { words := "x", count := 2 }, { words := "s", count := 1 }] := by
  have hs : ([{ words := "p", count := 3 }, { words := "q", count := 2 },
      { words := "r", count := 2 }, { words := "s", count := 1 }] :
        List wordSequenceCount).Pairwise (fun a b => b.count ≤ a.count) := by decide
  refine ⟨hs, ?_⟩
  have h := (insertDescSort_sorted _ { words := "x", count := 2 } hs).1
  rw [h]
  decide

theorem Overlap_append (x cw : List String) (t : String) (h : Overlap x cw) :
    Overlap x (cw ++ [t]) := by
  obtain ⟨h1, h2⟩ := h
  refine ⟨h1, ?_⟩
  have hl : (cw.take 2).length = 2 := by
    rw [h2, List.length_drop]; omega
  have hc : 2 ≤ cw.length := by
    rw [List.length_take] at hl; omega
  rw [List.take_append_of_le_length hc, h2]

theorem Overlap_lastTwo (cw : List String) (h : 2 ≤ cw.length) :
    Overlap cw (cw.drop (cw.length - 2)) := by
  refine ⟨h, ?_⟩
  apply List.take_of_length_le
  rw [List.length_drop]; omega

theorem readStep_overlapInv (batchSize : Int) (st : ReaderState) (t : String) (st' : ReaderState)
    (hI : overlapInv st) (h : readStep batchSize st t = some st') : overlapInv st' := by
  obtain ⟨h1, h2⟩ := hI
  unfold readStep at h
  split at h
  · simp only [Option.some.injEq] at h; subst h
    exact ⟨h1, fun x hx => Overlap_append x _ t (h2 x hx)⟩
  · simp only at h
    split at h
    · next hlen =>
      simp only [Option.some.injEq] at h; subst h
      constructor
      · show (st.ch ++ [st.curWords ++ [t]]).Chain' Overlap
        rw [List.chain'_append]
        refine ⟨h1, List.chain'_singleton _, ?_⟩
        intro x hx y hy
        simp only [List.head?_cons, Option.mem_def, Option.some.injEq] at hy
        subst hy
        exact Overlap_append x _ t (h2 x hx)
      · intro x hx
        rw [List.getLast?_concat] at hx
        simp only [Option.mem_def, Option.some.injEq] at hx
        subst hx
        exact Overlap_lastTwo _ hlen
    · simp at h

theorem readStep_sizeInv (B : Nat) (st : ReaderState) (t : String) (st' : ReaderState)
    (hI : sizeInv B st) (h : readStep (B : Int) st t = some st') : sizeInv B st' := by
  obtain ⟨h0, h1, h2, h3⟩ := hI
  unfold readStep at h
  split at h
  · next hle =>
    simp only [Option.some.injEq] at h; subst h
    refine ⟨by simp; omega, by simp; omega, ?_, h3⟩
    simp only [List.length_append, List.length_singleton]
    push_cast
    omega
  · next hgt =>
    simp only at h
    split at h
    · next hlen =>
      simp only [Option.some.injEq] at h; subst h
      refine ⟨le_refl _, by show (0 : Int) ≤ (B : Int) + 1; omega, ?_, ?_⟩
      · simp only [List.length_drop, List.length_append, List.length_singleton] at hlen ⊢
        simp
        omega
      · simp only [List.map_append, List.length_append, List.length_singleton, List.map_cons,
          List.map_nil, List.range_succ, h3]
        congr 1
        have hb : st.curBatch = (B : Int) + 1 := by omega
        by_cases hz : st.ch.length = 0
        · simp only [hz, if_true] at h2 ⊢
          simp
          omega
        · simp only [hz, if_false] at h2 ⊢
          simp
          omega
    · simp at h

theorem readLoop_overlapInv (batchSize : Int) (ts : List String) (st st' : ReaderState)
    (hI : overlapInv st) (h : readLoop batchSize st ts = some st') : overlapInv st' :=
  readLoop_induct batchSize (fun s _ => overlapInv s)
    (fun s _ t s' hs hstep => readStep_overlapInv batchSize s t s' hs hstep) ts st [] st' hI h

theorem readLoop_sizeInv (B : Nat) (ts : List String) (st st' : ReaderState)
    (hI : sizeInv B st) (h : readLoop (B : Int) st ts = some st') : sizeInv B st' :=
  readLoop_induct (B : Int) (fun s _ => sizeInv B s)
    (fun s _ t s' hs hstep => readStep_sizeInv B s t s' hs hstep) ts st [] st' hI h

/-- The final state behind a result of `readFromStream`. -/
theorem readFromStream_some (tokens : List String) (batchSize : Int) (bs : List (List String))
    (h : readFromStream tokens batchSize = some bs) :
    ∃ st, readLoop batchSize { curWords := [], curBatch := 0, ch := [] } tokens = some st ∧
      bs = st.ch ++ [st.curWords] := by
  unfold readFromStream at h
  cases hl : readLoop batchSize { curWords := [], curBatch := 0, ch := [] } tokens with
  | none => rw [hl] at h; simp at h
  | some st =>
    rw [hl] at h
    simp only [Option.some.injEq] at h
    exact ⟨st, rfl, h.symm⟩

theorem readFromStream_chain (tokens : List String) (batchSize : Int) (bs : List (List String))
    (h : readFromStream tokens batchSize = some bs) : bs.Chain' Overlap := by
  obtain ⟨st, hl, rfl⟩ := readFromStream_some tokens batchSize bs h
  obtain ⟨h1, h2⟩ := readLoop_overlapInv batchSize tokens _ st
    (by simp [overlapInv]) hl
  rw [List.chain'_append]
  refine ⟨h1, List.chain'_singleton _, ?_⟩
  intro x hx y hy
  simp only [List.head?_cons, Option.mem_def, Option.some.injEq] at hy
  subst hy
  exact h2 x hx

theorem readFromStream_sizes (tokens : List String) (B : Nat) (bs : List (List String))
    (h : readFromStream tokens (B : Int) = some bs) (k : Nat) (hk : k + 1 < bs.length) :
    (bs.getD k []).length = if k = 0 then B + 2 else B + 4 := by
  obtain ⟨st, hl, rfl⟩ := readFromStream_some tokens (B : Int) bs h
  obtain ⟨_, _, _, h3⟩ := readLoop_sizeInv B tokens _ st
    (by simp only [sizeInv, List.length_nil, if_true, List.map_nil, List.range_zero]; simp; omega) hl
  have hk' : k < st.ch.length := by simpa using hk
  have h4 := congrArg (fun l => l[k]?) h3
  simp only [List.getElem?_map, List.getElem?_eq_getElem hk', Option.map_some',
    List.getElem?_range hk'] at h4
  rw [List.getD_eq_getElem?_getD, List.getElem?_append_left hk', List.getElem?_eq_getElem hk']
  simpa using h4

theorem isWordChar_eq (c : Char) : isWordChar c = (c.isAlpha || c.isDigit || c == '_') := by
  simp only [isWordChar, Char.isAlpha, Char.isUpper, Char.isLower, Char.isDigit, Char.le_def,
    UInt32.le_def, ge_iff_le]
  have e0 : ('0' : Char).val = 48 := rfl
  have e9 : ('9' : Char).val = 57 := rfl
  have eA : ('A' : Char).val = 65 := rfl
  have eZ : ('Z' : Char).val = 90 := rfl
  have ea : ('a' : Char).val = 97 := rfl
  have ez : ('z' : Char).val = 122 := rfl
  rw [e0, e9, eA, eZ, ea, ez]
  cases decide (48 ≤ c.val) <;> cases decide (c.val ≤ 57) <;> cases decide (65 ≤ c.val) <;>
    cases decide (c.val ≤ 90) <;> cases decide (97 ≤ c.val) <;> cases decide (c.val ≤ 122) <;>
    cases (c == '_') <;> rfl

theorem replaceAllString_nil (re : Char → Bool) (l : List Char) :
    replaceAllString re [] l = l.filter (fun c => !re c) := by
  induction l with
  | nil => rfl
  | cons c rest ih =>
    rw [replaceAllString, ih]
    cases h : re c <;> simp [h]

theorem normalize_filterPattern (w : String) :
    normalize filterPattern w = String.mk (w.data.filter isWordChar) := by
  unfold normalize
  rw [replaceAllString_nil]
  congr 2
  funext c
  simp [filterPattern]

theorem getD_append_cons (pre post : List String) (x : String) :
    (pre ++ x :: post).getD pre.length "" = x := by
  induction pre with
  | nil => rfl
  | cons p pre ih => simpa using ih

theorem set_append_cons (pre post : List String) (x y : String) :
    (pre ++ x :: post).set pre.length y = pre ++ y :: post := by
  induction pre with
  | nil => rfl
  | cons p pre ih => simp [ih]

theorem foldl_set_eq (f : String → String) (words : List String) :
    ∀ k, k ≤ words.length →
      (List.range k).foldl (fun ws i => ws.set i (f (ws.getD i ""))) words
        = (words.take k).map f ++ words.drop k := by
  intro k
  induction k with
  | zero => intro _; simp
  | succ k ih =>
    intro hk
    have hk' : k < words.length := by omega
    rw [List.range_succ, List.foldl_append, ih (by omega)]
    simp only [List.foldl_cons, List.foldl_nil]
    have hlen : ((words.take k).map f).length = k := by
      rw [List.length_map, List.length_take]; omega
    have hd : words.drop k = words[k] :: words.drop (k + 1) := by
      rw [List.drop_eq_getElem_cons hk']
    rw [hd]
    have h1 := getD_append_cons ((words.take k).map f) (words.drop (k + 1)) words[k]
    have h2 := set_append_cons ((words.take k).map f) (words.drop (k + 1)) words[k] (f words[k])
    rw [hlen] at h1 h2
    rw [h1, h2, List.take_succ, List.map_append, List.getElem?_eq_getElem hk']
    simp

theorem filterWords_eq_map (re : Char → Bool) (words : List String) :
    filterWords re words = words.map (normalize re) := by
  unfold filterWords
  rw [foldl_set_eq (normalize re) words words.length (le_refl _)]
  simp

/-- C5 (batch overlap): for every token sequence and batch size `B ≥ 0`, `readFromStream`
returns its batches, and whenever it returns (whatever `B` is) any two consecutive batches it
emitted, the final flushed batch included, overlap by 2 tokens: batch `k` has at least two tokens
and its last two are the first two of batch `k+1`. -/
theorem batch_overlap (T : List String) (B : Int) :
    (0 ≤ B → ∃ bs, readFromStream T B = some bs) ∧
      ∀ bs, readFromStream T B = some bs →
        bs.Chain' (fun b b' => 2 ≤ b.length ∧ b'.take 2 = b.drop (b.length - 2)) :=
  ⟨readFromStream_isSome T B, fun bs h => readFromStream_chain T B bs h⟩

theorem batch_overlap_witness :
    (0 : Int) ≤ 1 ∧
    readFromStream ["a", "b", "c", "d", "e", "f", "g", "h", "i"] 1
      = some [["a", "b", "c"], ["b", "c", "d", "e", "f"], ["e", "f", "g", "h", "i"], ["h", "i"]] ∧
    [["a", "b", "c"], ["b", "c", "d", "e", "f"], ["e", "f", "g", "h", "i"], ["h", "i"]].Chain'
      (fun b b' => 2 ≤ b.length ∧ b'.take 2 = b.drop (b.length - 2)) :=
  ⟨by decide, by decide,
    (batch_overlap ["a", "b", "c", "d", "e", "f", "g", "h", "i"] 1).2 _ (by decide)⟩

theorem readStep_emitInv (B : Nat) (st : ReaderState) (P : List String) (t : String)
    (st' : ReaderState) (hI : emitInv B st P) (h : readStep (B : Int) st t = some st') :
    emitInv B st' (P ++ [t]) := by
  obtain ⟨hs, hp⟩ := hI
  refine ⟨readStep_sizeInv B st t st' hs h, ?_⟩
  obtain ⟨h0, h1, _, _⟩ := hs
  unfold readStep at h
  split at h
  · simp only [Option.some.injEq] at h; subst h
    simp only [List.length_append, List.length_singleton]
    push_cast
    linarith
  · next hgt =>
    simp only at h
    split at h
    · simp only [Option.some.injEq] at h; subst h
      have hb : st.curBatch = (B : Int) + 1 := by omega
      simp only [List.length_append, List.length_singleton]
      push_cast
      rw [hb] at hp
      linarith
    · simp at h

theorem readFromStream_length (tokens : List String) (B : Nat) (bs : List (List String))
    (h : readFromStream tokens (B : Int) = some bs) :
    bs.length = tokens.length / (B + 2) + 1 := by
  obtain ⟨st, hl, rfl⟩ := readFromStream_some tokens (B : Int) bs h
  have hinit : emitInv B { curWords := [], curBatch := 0, ch := [] } [] := by
    refine ⟨?_, by simp⟩
    simp only [sizeInv, List.length_nil, if_true, List.map_nil, List.range_zero]
    simp
    omega
  obtain ⟨⟨h0, h1, _, _⟩, hp⟩ :=
    readLoop_induct (B : Int) (emitInv B) (readStep_emitInv B) tokens _ [] st hinit hl
  simp only [List.nil_append] at hp
  obtain ⟨cb, hcb⟩ := Int.eq_ofNat_of_zero_le h0
  rw [hcb] at hp h1
  have hp' : tokens.length = cb + (B + 2) * st.ch.length := by
    have : ((tokens.length : Nat) : Int) = ((cb + (B + 2) * st.ch.length : Nat) : Int) := by
      push_cast
      linarith
    exact Int.ofNat.inj this
  have hlt : cb < B + 2 := by omega
  rw [hp', Nat.add_mul_div_left _ _ (by omega : 0 < B + 2), Nat.div_eq_of_lt hlt]
  simp

/-- C6 (batch emission size) fails on the code: with `B = 3` and the six tokens `a … f` the
batch emitted before the final flush has `5 = B + 2` tokens, neither `B + 1` nor the
`batchSize` of the doc comment, and with `B = 1` and nine tokens the second batch has
`5 = B + 4`.  For every `B ≥ 0` and every input, `readFromStream` emits `len(T) / (B + 2)`
batches before the final flush, the first of exactly `B + 2` tokens and every later one of
exactly `B + 4`, each followed by a batch that starts with its last 2 tokens. -/
theorem batch_emission_size_evaluated :
    readFromStream ["a", "b", "c", "d", "e", "f"] 3
        = some [["a", "b", "c", "d", "e"], ["d", "e", "f"]] ∧
      (["a", "b", "c", "d", "e"] : List String).length ≠ 3 + 1 ∧
      (["a", "b", "c", "d", "e"] : List String).length ≠ 3 ∧
      readFromStream ["a", "b", "c", "d", "e", "f", "g", "h", "i"] 1
        = some [["a", "b", "c"], ["b", "c", "d", "e", "f"], ["e", "f", "g", "h", "i"],
            ["h", "i"]] ∧
      ∀ (T : List String) (B : Nat), ∃ bs, readFromStream T (B : Int) = some bs ∧
        bs.length = T.length / (B + 2) + 1 ∧
        (∀ k, k + 1 < bs.length → (bs.getD k []).length = if k = 0 then B + 2 else B + 4) ∧
        bs.Chain' (fun b b' => 2 ≤ b.length ∧ b'.take 2 = b.drop (b.length - 2)) := by
  refine ⟨by decide, by decide, by decide, by decide, ?_⟩
  intro T B
  obtain ⟨bs, h⟩ := readFromStream_isSome T (B : Int) (Int.ofNat_nonneg B)
  exact ⟨bs, h, readFromStream_length T B bs h, fun k hk => readFromStream_sizes T B bs h k hk,
    readFromStream_chain T B bs h⟩

theorem isWordChar_iff (c : Char) :
    isWordChar c = true ↔
      (48 ≤ c.toNat ∧ c.toNat ≤ 57) ∨ (65 ≤ c.toNat ∧ c.toNat ≤ 90) ∨
        (97 ≤ c.toNat ∧ c.toNat ≤ 122) ∨ c.toNat = 95 := by
  have hu : c = '_' ↔ c.toNat = 95 := by
    constructor
    · intro h; subst h; rfl
    · intro h
      apply Char.ext
      apply UInt32.ext
      exact h
  simp only [isWordChar, Bool.or_eq_true, Bool.and_eq_true, decide_eq_true_eq, beq_iff_eq, hu,
    Char.le_def, UInt32.le_def, BitVec.le_def]
  have e0 : ('0' : Char).val.toBitVec.toNat = 48 := rfl
  have e9 : ('9' : Char).val.toBitVec.toNat = 57 := rfl
  have eA : ('A' : Char).val.toBitVec.toNat = 65 := rfl
  have eZ : ('Z' : Char).val.toBitVec.toNat = 90 := rfl
  have ea : ('a' : Char).val.toBitVec.toNat = 97 := rfl
  have ez : ('z' : Char).val.toBitVec.toNat = 122 := rfl
  have ec : c.val.toBitVec.toNat = c.toNat := rfl
  rw [e0, e9, eA, eZ, ea, ez, ec]
  tauto

/-- C7, as claimed, fails: `été` consists of letters and `٣` is a digit, yet `filter` with
`[^\w]` turns them into `t` and the empty string. -/
theorem filter_deletes_non_ascii :
    filter filterPattern [["été", "٣", "naïve_1"]] = [["t", "", "nave_1"]] ∧
      ("été" : String) ≠ "t" ∧ ("٣" : String) ≠ "" := by
  decide

/-- C7, amended (normalizer): `filter` with the pattern `[^\w]` sends one batch per batch
received, in the same order, each of the same length, and its `i`-th token is the `i`-th input
token with exactly the characters kept, in their order, that are an ASCII letter `A-Z`/`a-z`
(code points 65-90, 97-122), an ASCII digit `0-9` (48-57) or `_` (95), every other character,
non-ASCII letters and digits included, being deleted; a token without such characters becomes
`""` and stays. -/
theorem filter_normalizes (wordsBatch : List (List String)) :
    filter filterPattern wordsBatch
        = wordsBatch.map (fun words =>
            words.map (fun w => String.mk (w.data.filter isWordChar))) ∧
      (filter filterPattern wordsBatch).map List.length = wordsBatch.map List.length ∧
      (∀ c, isWordChar c = (c.isAlpha || c.isDigit || c == '_')) ∧
      filter filterPattern [["a.", "b-c", "?!"], [], ["x_1"]] = [["a", "bc", ""], [], ["x_1"]] ∧
      (∀ c : Char, isWordChar c = true ↔
        (48 ≤ c.toNat ∧ c.toNat ≤ 57) ∨ (65 ≤ c.toNat ∧ c.toNat ≤ 90) ∨
          (97 ≤ c.toNat ∧ c.toNat ≤ 122) ∨ c.toNat = 95) := by
  have h : filter filterPattern wordsBatch
      = wordsBatch.map (fun words =>
          words.map (fun w => String.mk (w.data.filter isWordChar))) := by
    unfold filter
    apply List.map_congr_left
    intro words _
    rw [filterWords_eq_map]
    apply List.map_congr_left
    intro w _
    exact normalize_filterPattern w
  refine ⟨h, ?_, ?_, by decide, isWordChar_iff⟩
  · rw [h, List.map_map]
    apply List.map_congr_left
    intro words _
    simp
  · intro c
    exact isWordChar_eq c

/-- C8 (normalization idempotence): deleting all matches of `[^\w]` from an already
normalized token changes nothing. -/
theorem normalize_idempotent (w : String) :
    normalize filterPattern (normalize filterPattern w) = normalize filterPattern w := by
  rw [normalize_filterPattern, normalize_filterPattern]
  simp

theorem trigrams_eq_nil_iff (l : List String) : trigrams l = [] ↔ l.length ≤ 2 := by
  constructor
  · intro h
    match l, h with
    | [], _ => simp
    | [_], _ => simp
    | [_, _], _ => simp
    | _ :: _ :: _ :: _, h => simp [trigrams] at h
  · exact trigrams_short l

theorem filterWords_length (re : Char → Bool) (words : List String) :
    (filterWords re words).length = words.length := by
  rw [filterWords_eq_map, List.length_map]

theorem flatMap_trigrams_filter (re : Char → Bool) (bs : List (List String))
    (h : bs.flatMap trigrams = []) : (filter re bs).flatMap trigrams = [] := by
  rw [List.flatMap_eq_nil_iff] at h ⊢
  intro b hb
  unfold filter at hb
  obtain ⟨b0, hb0, rfl⟩ := List.mem_map.1 hb
  rw [trigrams_eq_nil_iff, filterWords_length, ← trigrams_eq_nil_iff]
  exact h b0 hb0

theorem count_eq_nil (bs : List (List String)) (h : bs.flatMap trigrams = []) :
    count bs = [] := by
  unfold count
  rw [countMap_eq, h]
  rfl

theorem topN_int_eq_take (n : Int) (hn : 0 ≤ n) (wscBatch : List wordSequenceCount) :
    topN n wscBatch = some ((insertAll wscBatch).take n.toNat) := by
  have h := topN_eq_take n.toNat wscBatch
  rwa [Int.toNat_of_nonneg hn] at h

/-- C11 (fewer than N entries): for a stream of fewer than `N` pairs, `topN(N, stream)` returns
an array that is a permutation of the whole stream (so of the same length, nothing dropped) and
is non-increasing by count. -/
theorem topN_fewer_than_N (N : Int) (wscBatch : List wordSequenceCount)
    (h : (wscBatch.length : Int) < N) :
    ∃ arr, topN N wscBatch = some arr ∧ arr.Perm wscBatch ∧ arr.length = wscBatch.length ∧
      arr.Pairwise (fun a b => b.count ≤ a.count) := by
  have hn : 0 ≤ N := by omega
  have hl : (insertAll wscBatch).length ≤ N.toNat := by
    rw [(insertAll_perm wscBatch).length_eq]; omega
  refine ⟨insertAll wscBatch, ?_, insertAll_perm wscBatch, (insertAll_perm wscBatch).length_eq,
    insertAll_desc wscBatch⟩
  rw [topN_int_eq_take N hn, List.take_of_length_le hl]

theorem topN_fewer_than_N_witness :
    (([{ words := "c b a", count := 1 }, { words := "a b c", count := 2 }] :
        List wordSequenceCount).length : Int) < 3 ∧
    ∃ arr, topN 3 [{ words := "c b a", count := 1 }, { words := "a b c", count := 2 }] = some arr ∧
      arr.Perm [{ words := "c b a", count := 1 }, { words := "a b c", count := 2 }] ∧
      arr.length = ([{ words := "c b a", count := 1 }, { words := "a b c", count := 2 }] :
        List wordSequenceCount).length ∧
      arr.Pairwise (fun a b => b.count ≤ a.count) :=
  ⟨by decide, topN_fewer_than_N 3 _ (by decide)⟩

/-- C12 (empty input): for a source of fewer than 3 tokens (zero in particular), every batch
size `B ≥ 0` and every capacity `N`, no stage panics and the result is empty: the chained
stages return `[]`, and so does `topN` on any order in which `count` may emit, whatever the
order in which the filtered batches reach `count`. -/
theorem empty_input (T : List String) (B N : Int) (hT : T.length < 3) (hB : 0 ≤ B) :
    pipeline T B N = some [] ∧
      ∃ bs, readFromStream T B = some bs ∧
        ∀ bs' stream, bs'.Perm (filter filterPattern bs) → stream.Perm (count bs') →
          topN N stream = some [] := by
  obtain ⟨bs, h⟩ := readFromStream_isSome T B hB
  have h0 : bs.flatMap trigrams = [] := by
    rw [readFromStream_trigrams T B bs h]
    exact trigrams_short T (by omega)
  have h1 := flatMap_trigrams_filter filterPattern bs h0
  refine ⟨?_, bs, h, ?_⟩
  · unfold pipeline
    rw [h]
    simp only
    rw [count_eq_nil _ h1]
    rfl
  · intro bs' stream hp hs
    have h2 : bs'.flatMap trigrams = [] := by
      rw [List.flatMap_eq_nil_iff] at h1 ⊢
      intro b hb
      exact h1 b (hp.mem_iff.1 hb)
    rw [count_eq_nil _ h2] at hs
    rw [List.Perm.eq_nil hs]
    rfl

theorem empty_input_witness :
    ([] : List String).length < 3 ∧ (0 : Int) ≤ 500 ∧
    pipeline [] 500 100 = some [] ∧
      ∃ bs, readFromStream [] 500 = some bs ∧
        ∀ bs' stream, bs'.Perm (filter filterPattern bs) → stream.Perm (count bs') →
          topN 100 stream = some [] :=
  ⟨by decide, by decide, empty_input [] 500 100 (by decide) (by decide)⟩

theorem unbatch_singleton (b : List String) : unbatch [b] = b := by
  simp [unbatch]

theorem unbatch_append_singleton (ch : List (List String)) (b : List String) (h : ch ≠ []) :
    unbatch (ch ++ [b]) = unbatch ch ++ b.drop 2 := by
  cases ch with
  | nil => exact absurd rfl h
  | cons first rest => simp [unbatch, List.flatMap_append]

theorem unbatch_push (ch : List (List String)) (cw P : List String) (t : String)
    (h1 : unbatch (ch ++ [cw]) = P) (h2 : ch ≠ [] → 2 ≤ cw.length) :
    unbatch (ch ++ [cw ++ [t]]) = P ++ [t] := by
  by_cases hc : ch = []
  · subst hc
    simp only [List.nil_append, unbatch_singleton] at h1 ⊢
    rw [h1]
  · rw [unbatch_append_singleton _ _ hc] at h1 ⊢
    rw [List.drop_append_of_le_length (h2 hc), ← List.append_assoc, h1]

theorem readStep_concatInv (batchSize : Int) (st : ReaderState) (P : List String) (t : String)
    (st' : ReaderState) (hI : concatInv st P) (h : readStep batchSize st t = some st') :
    concatInv st' (P ++ [t]) := by
  obtain ⟨h1, h2⟩ := hI
  have key := unbatch_push st.ch st.curWords P t h1 h2
  unfold readStep at h
  split at h
  · simp only [Option.some.injEq] at h; subst h
    refine ⟨key, ?_⟩
    intro hc
    have := h2 hc
    simp only [List.length_append, List.length_singleton]
    omega
  · simp only at h
    split at h
    · next hlen =>
      simp only [Option.some.injEq] at h; subst h
      have hl : ((st.curWords ++ [t]).drop ((st.curWords ++ [t]).length - 2)).length = 2 := by
        rw [List.length_drop]; omega
      constructor
      · show unbatch (st.ch ++ [st.curWords ++ [t]]
            ++ [(st.curWords ++ [t]).drop ((st.curWords ++ [t]).length - 2)]) = P ++ [t]
        rw [unbatch_append_singleton _ _ (by simp), key,
          List.drop_of_length_le (by omega), List.append_nil]
      · intro _
        show 2 ≤ ((st.curWords ++ [t]).drop ((st.curWords ++ [t]).length - 2)).length
        omega
    · simp at h

theorem readFromStream_unbatch (tokens : List String) (batchSize : Int)
    (bs : List (List String)) (h : readFromStream tokens batchSize = some bs) :
    unbatch bs = tokens := by
  obtain ⟨st, hl, rfl⟩ := readFromStream_some tokens batchSize bs h
  have := readLoop_induct batchSize concatInv (readStep_concatInv batchSize) tokens _ [] st
    (by simp [concatInv, unbatch]) hl
  simpa using this.1

theorem readFromStream_le (tokens : List String) (B : Nat) (bs : List (List String))
    (h : readFromStream tokens (B : Int) = some bs) : ∀ b ∈ bs, b.length ≤ B + 4 := by
  obtain ⟨st, hl, rfl⟩ := readFromStream_some tokens (B : Int) bs h
  obtain ⟨h0, h1, h2, h3⟩ := readLoop_sizeInv B tokens _ st
    (by simp only [sizeInv, List.length_nil, if_true, List.map_nil, List.range_zero]; simp; omega) hl
  intro b hb
  rcases List.mem_append.1 hb with hb | hb
  · have hm : b.length ∈ st.ch.map List.length := List.mem_map.2 ⟨b, hb, rfl⟩
    rw [h3] at hm
    obtain ⟨k, _, hk⟩ := List.mem_map.1 hm
    rw [← hk]
    split <;> omega
  · simp only [List.mem_singleton] at hb
    subst hb
    split at h2 <;> omega

theorem readFromStream_neg (tokens : List String) (B : Int) (hB : B < 0) (hT : tokens ≠ []) :
    readFromStream tokens B = none := by
  cases tokens with
  | nil => exact absurd rfl hT
  | cons t rest =>
    have hs : readStep B { curWords := [], curBatch := 0, ch := [] } t = none := by
      unfold readStep
      have : ¬ (0 : Int) ≤ B := by omega
      simp [this]
    unfold readFromStream
    rw [readLoop, hs]

/-- C15 (no token lost or reordered): for every token sequence `T` and batch size `B ≥ 0`,
`readFromStream` emits at least one batch, and the first batch followed by every later batch
without its first 2 tokens is exactly `T`. -/
theorem batching_preserves_tokens (T : List String) (B : Nat) :
    ∃ first rest, readFromStream T (B : Int) = some (first :: rest) ∧
      first ++ rest.flatMap (List.drop 2) = T := by
  obtain ⟨bs, h⟩ := readFromStream_isSome T (B : Int) (Int.ofNat_nonneg B)
  have hu := readFromStream_unbatch T (B : Int) bs h
  obtain ⟨st, _, hbs⟩ := readFromStream_some T (B : Int) bs h
  cases bs with
  | nil => simp at hbs
  | cons first rest => exact ⟨first, rest, h, hu⟩

/-- C16 (carry-over slice safety): for every batch size `B ≥ 0` and every token sequence,
`readFromStream` does not panic and every batch it emits before the final one has at least 2
tokens, so `curWords[len(curWords)-2:]` is in bounds; for every `B < 0` and every non-empty
input, e.g. `B = -1` and the single token `"a"`, the expression is out of bounds and the
goroutine panics. -/
theorem carry_over_slice_safety :
    (∀ (T : List String) (B : Nat), ∃ bs, readFromStream T (B : Int) = some bs ∧
        ∀ k, k + 1 < bs.length → 2 ≤ (bs.getD k []).length) ∧
      (∀ (T : List String) (B : Int), B < 0 → T ≠ [] → readFromStream T B = none) ∧
      readFromStream ["a"] (-1) = none ∧
      readStep (-1) { curWords := [], curBatch := 0, ch := [] } "a" = none := by
  refine ⟨?_, fun T B hB hT => readFromStream_neg T B hB hT, by decide, by decide⟩
  intro T B
  obtain ⟨bs, h⟩ := readFromStream_isSome T (B : Int) (Int.ofNat_nonneg B)
  refine ⟨bs, h, ?_⟩
  intro k hk
  rw [readFromStream_sizes T B bs h k hk]
  split <;> omega

/-- C18 (batch size bound): for every batch size `B ≥ 0` and every token sequence, every batch
`readFromStream` emits, the final flush included, has at most `B + 4` tokens. -/
theorem batch_length_bound (T : List String) (B : Nat) :
    ∃ bs, readFromStream T (B : Int) = some bs ∧ ∀ b ∈ bs, b.length ≤ B + 4 := by
  obtain ⟨bs, h⟩ := readFromStream_isSome T (B : Int) (Int.ofNat_nonneg B)
  exact ⟨bs, h, readFromStream_le T B bs h⟩

theorem batch_length_bound_witness :
    ∃ bs, readFromStream ["a", "b", "c", "d", "e", "f", "g", "h", "i"] ((1 : Nat) : Int) = some bs ∧
      ∀ b ∈ bs, b.length ≤ 1 + 4 :=
  batch_length_bound ["a", "b", "c", "d", "e", "f", "g", "h", "i"] 1

theorem withCount_cons (c : Int) (e : wordSequenceCount) (arr : List wordSequenceCount) :
    withCount c (e :: arr) = if e.count = c then e :: withCount c arr else withCount c arr := by
  unfold withCount
  by_cases h : e.count = c <;> simp [List.filter_cons, h]

theorem withCount_eq_nil_of_lt (c : Int) (arr : List wordSequenceCount)
    (h : ∀ e ∈ arr, e.count < c) : withCount c arr = [] := by
  unfold withCount
  rw [List.filter_eq_nil_iff]
  intro e he
  have := h e he
  simp
  omega

theorem insertScan_withCount (c : Int) (x : wordSequenceCount) (arr : List wordSequenceCount)
    (hs : Desc arr) :
    withCount c (insertScan x arr) = withCount c arr ++ (if x.count = c then [x] else []) := by
  induction arr with
  | nil =>
    by_cases hx : x.count = c <;> simp [insertScan, withCount, List.filter_cons, hx]
  | cons e rest ih =>
    unfold Desc at hs ih
    rw [List.pairwise_cons] at hs
    rw [insertScan]
    by_cases h : e.count < x.count
    · rw [if_pos h, withCount_cons c x]
      by_cases hx : x.count = c
      · have hnil : withCount c (e :: rest) = [] := by
          apply withCount_eq_nil_of_lt
          intro b hb
          rcases List.mem_cons.1 hb with rfl | hb
          · omega
          · have := hs.1 b hb
            omega
        rw [hnil]
        simp [hx]
      · simp [hx]
    · rw [if_neg h, withCount_cons c e, withCount_cons c e, ih hs.2]
      by_cases he : e.count = c
      · rw [if_pos he, if_pos he]; rfl
      · rw [if_neg he, if_neg he]

theorem foldl_insertScan_withCount (c : Int) (wscBatch : List wordSequenceCount) :
    ∀ full, Desc full →
      withCount c (wscBatch.foldl (fun arr wsc => insertScan wsc arr) full)
        = withCount c full ++ withCount c wscBatch := by
  induction wscBatch with
  | nil => intro full _; simp [withCount]
  | cons x rest ih =>
    intro full hs
    rw [List.foldl_cons, ih _ (insertScan_desc x full hs), insertScan_withCount c x full hs,
      withCount_cons c x rest, List.append_assoc]
    by_cases hx : x.count = c
    · rw [if_pos hx, if_pos hx]; rfl
    · rw [if_neg hx, if_neg hx]; rfl

theorem insertAll_withCount (c : Int) (wscBatch : List wordSequenceCount) :
    withCount c (insertAll wscBatch) = withCount c wscBatch := by
  have := foldl_insertScan_withCount c wscBatch [] (by simp [Desc])
  simpa [insertAll, withCount] using this

theorem Desc_unique : ∀ (l1 l2 : List wordSequenceCount), Desc l1 → Desc l2 →
    (∀ c, withCount c l1 = withCount c l2) → l1 = l2 := by
  intro l1
  induction l1 with
  | nil =>
    intro l2 _ _ hf
    cases l2 with
    | nil => rfl
    | cons b t2 =>
      have := hf b.count
      rw [withCount_cons, if_pos rfl] at this
      simp [withCount] at this
  | cons a t1 ih =>
    intro l2 h1 h2 hf
    cases l2 with
    | nil =>
      have := hf a.count
      rw [withCount_cons, if_pos rfl] at this
      simp [withCount] at this
    | cons b t2 =>
      unfold Desc at h1 h2
      rw [List.pairwise_cons] at h1 h2
      have hmem : ∀ (l l' : List wordSequenceCount) (e : wordSequenceCount),
          (∀ c, withCount c l = withCount c l') → e ∈ l → e ∈ l' := by
        intro l l' e hc he
        have h1 : e ∈ withCount e.count l := by
          unfold withCount
          rw [List.mem_filter]
          exact ⟨he, by simp⟩
        rw [hc] at h1
        unfold withCount at h1
        exact (List.mem_filter.1 h1).1
      have hab : a.count ≤ b.count := by
        rcases List.mem_cons.1 (hmem _ _ a hf (List.mem_cons_self _ _)) with rfl | hm
        · exact le_refl _
        · exact h2.1 a hm
      have hba : b.count ≤ a.count := by
        rcases List.mem_cons.1 (hmem _ _ b (fun c => (hf c).symm) (List.mem_cons_self _ _))
          with rfl | hm
        · exact le_refl _
        · exact h1.1 b hm
      have hc : b.count = a.count := le_antisymm hba hab
      have h0 := hf a.count
      rw [withCount_cons, withCount_cons, if_pos rfl, if_pos hc] at h0
      have hEq : a = b := (List.cons.inj h0).1
      subst hEq
      congr 1
      apply ih t2 h1.2 h2.2
      intro c
      have hcc := hf c
      rw [withCount_cons, withCount_cons] at hcc
      by_cases hac : a.count = c
      · simp only [if_pos hac] at hcc
        exact (List.cons.inj hcc).2
      · simp only [if_neg hac] at hcc
        exact hcc

theorem countGe_trans (a b c : wordSequenceCount) (h1 : countGe a b = true)
    (h2 : countGe b c = true) : countGe a c = true := by
  simp only [countGe, decide_eq_true_eq] at h1 h2 ⊢
  omega

theorem countGe_total (a b : wordSequenceCount) : (countGe a b || countGe b a) = true := by
  simp only [countGe, Bool.or_eq_true, decide_eq_true_eq]
  omega

theorem stableSortDesc_perm (wscBatch : List wordSequenceCount) :
    (stableSortDesc wscBatch).Perm wscBatch :=
  List.mergeSort_perm wscBatch countGe

theorem stableSortDesc_desc (wscBatch : List wordSequenceCount) :
    Desc (stableSortDesc wscBatch) := by
  have h := List.sorted_mergeSort countGe_trans countGe_total wscBatch
  unfold Desc stableSortDesc
  refine List.Pairwise.imp ?_ h
  intro a b hab
  simpa [countGe] using hab

theorem stableSortDesc_withCount (c : Int) (wscBatch : List wordSequenceCount) :
    withCount c (stableSortDesc wscBatch) = withCount c wscBatch := by
  have hpw : (withCount c wscBatch).Pairwise (fun a b => countGe a b = true) := by
    apply List.pairwise_of_forall_mem_list
    intro x hx y hy
    unfold withCount at hx hy
    have h1 := (List.mem_filter.1 hx).2
    have h2 := (List.mem_filter.1 hy).2
    simp only [decide_eq_true_eq] at h1 h2
    simp only [countGe, decide_eq_true_eq]
    omega
  have hsub : (withCount c wscBatch).Sublist wscBatch := by
    unfold withCount; exact List.filter_sublist _
  have h1 : (withCount c wscBatch).Sublist (stableSortDesc wscBatch) :=
    List.sublist_mergeSort countGe_trans countGe_total hpw hsub
  have h2 : (withCount c (withCount c wscBatch)).Sublist (withCount c (stableSortDesc wscBatch)) := by
    unfold withCount at h1 ⊢
    exact h1.filter _
  have h3 : withCount c (withCount c wscBatch) = withCount c wscBatch := by
    unfold withCount; rw [List.filter_filter]; simp
  rw [h3] at h2
  have hlen : (withCount c (stableSortDesc wscBatch)).length = (withCount c wscBatch).length := by
    unfold withCount
    exact ((stableSortDesc_perm wscBatch).filter _).length_eq
  exact (h2.eq_of_length hlen.symm).symm

theorem insertAll_eq_stableSortDesc (wscBatch : List wordSequenceCount) :
    insertAll wscBatch = stableSortDesc wscBatch :=
  Desc_unique _ _ (insertAll_desc wscBatch) (stableSortDesc_desc wscBatch)
    (fun c => by rw [insertAll_withCount, stableSortDesc_withCount])

/-- C14 (tie order and general top-N): for every stream, ties allowed, and every `N ≥ 0`,
`topN(N, stream)` is the first `min(N, len)` entries of the stable descending-by-count sort of
the stream in arrival order, i.e. of the list that is a permutation of the stream, is
non-increasing by count and keeps the entries of any one count in their arrival order; so
truncating after every insertion gives what sorting everything and truncating once gives. -/
theorem topN_stable_sort (N : Nat) (wscBatch : List wordSequenceCount) :
    topN (N : Int) wscBatch = some ((stableSortDesc wscBatch).take (min N wscBatch.length)) ∧
      (stableSortDesc wscBatch).Perm wscBatch ∧
      (stableSortDesc wscBatch).Pairwise (fun a b => b.count ≤ a.count) ∧
      ∀ c : Int, (stableSortDesc wscBatch).filter (fun e => decide (e.count = c))
        = wscBatch.filter (fun e => decide (e.count = c)) := by
  refine ⟨?_, stableSortDesc_perm wscBatch, stableSortDesc_desc wscBatch,
    fun c => stableSortDesc_withCount c wscBatch⟩
  rw [topN_eq_take, insertAll_eq_stableSortDesc]
  congr 1
  have hl : (stableSortDesc wscBatch).length = wscBatch.length :=
    (stableSortDesc_perm wscBatch).length_eq
  rw [← hl, List.take_eq_take]
  omega

theorem append_space_inj : ∀ (a a' x x' : List Char), ' ' ∉ a → ' ' ∉ a' →
    a ++ ' ' :: x = a' ++ ' ' :: x' → a = a' ∧ x = x' := by
  intro a
  induction a with
  | nil =>
    intro a' x x' _ ha' h
    cases a' with
    | nil => exact ⟨rfl, (List.cons.inj h).2⟩
    | cons c r =>
      have hc : ' ' = c := (List.cons.inj h).1
      exact absurd (hc ▸ List.mem_cons_self _ _) ha'
  | cons c r ih =>
    intro a' x x' ha ha' h
    cases a' with
    | nil =>
      have hc : c = ' ' := (List.cons.inj h).1
      exact absurd (hc ▸ List.mem_cons_self _ _) ha
    | cons c' r' =>
      obtain ⟨h1, h2⟩ := List.cons.inj h
      obtain ⟨h3, h4⟩ := ih r' x x' (fun hm => ha (List.mem_cons_of_mem _ hm))
        (fun hm => ha' (List.mem_cons_of_mem _ hm)) h2
      exact ⟨by rw [h1, h3], h4⟩

theorem sprintf3_data (a b c : String) :
    (sprintf3 a b c).data = a.data ++ ' ' :: (b.data ++ ' ' :: c.data) := by
  simp [sprintf3, String.data_append]

theorem sprintf3_inj (a b c a' b' c' : String) (ha : ' ' ∉ a.data) (hb : ' ' ∉ b.data)
    (ha' : ' ' ∉ a'.data) (hb' : ' ' ∉ b'.data) (h : sprintf3 a b c = sprintf3 a' b' c') :
    a = a' ∧ b = b' ∧ c = c' := by
  have hd := congrArg String.data h
  rw [sprintf3_data, sprintf3_data] at hd
  obtain ⟨h1, h2⟩ := append_space_inj _ _ _ _ ha ha' hd
  obtain ⟨h3, h4⟩ := append_space_inj _ _ _ _ hb hb' h2
  exact ⟨String.ext h1, String.ext h3, String.ext h4⟩

theorem normalize_no_space (w : String) : ' ' ∉ (normalize filterPattern w).data := by
  rw [normalize_filterPattern]
  intro h
  have := (List.mem_filter.1 h).2
  exact absurd this (by decide)

/-- C17 (keys do not collide): for tokens `a`, `b`, `a'`, `b'` without a space character
(`c` and `c'` may be anything), the keys `a + " " + b + " " + c` and `a' + " " + b' + " " + c'`
are equal only if (and if) `a = a'`, `b = b'` and `c = c'`; no output of the default normalizer
contains a space, the empty string included. -/
theorem trigram_keys_do_not_collide (a b c a' b' c' : String)
    (ha : ' ' ∉ a.data) (hb : ' ' ∉ b.data) (ha' : ' ' ∉ a'.data) (hb' : ' ' ∉ b'.data) :
    (sprintf3 a b c = sprintf3 a' b' c' ↔ a = a' ∧ b = b' ∧ c = c') ∧
      ∀ w, ' ' ∉ (normalize filterPattern w).data := by
  refine ⟨⟨sprintf3_inj a b c a' b' c' ha hb ha' hb', ?_⟩, normalize_no_space⟩
  rintro ⟨rfl, rfl, rfl⟩
  rfl

theorem trigram_keys_do_not_collide_witness :
    sprintf3 "a" "" "b" ≠ sprintf3 "" "a" "b" ∧
      sprintf3 (normalize filterPattern "a.") (normalize filterPattern "...")
          (normalize filterPattern "b")
        ≠ sprintf3 (normalize filterPattern "?") (normalize filterPattern "a")
          (normalize filterPattern "b!") :=
  ⟨fun h => absurd ((trigram_keys_do_not_collide "a" "" "b" "" "a" "b" (by decide) (by decide)
      (by decide) (by decide)).1.1 h).1 (by decide),
    fun h => absurd ((trigram_keys_do_not_collide _ _ _ _ _ _ (normalize_no_space _)
      (normalize_no_space _) (normalize_no_space _) (normalize_no_space _)).1.1 h).1 (by decide)⟩

theorem lanes_split : ∀ (lanes : List Lane) (i : Nat) (l : Lane), lanes[i]? = some l →
    ∃ pre post, lanes = pre ++ l :: post ∧ ∀ l', lanes.set i l' = pre ++ l' :: post := by
  intro lanes
  induction lanes with
  | nil => intro i l h; simp at h
  | cons a rest ih =>
    intro i l h
    cases i with
    | zero =>
      simp only [List.getElem?_cons_zero, Option.some.injEq] at h
      subst h
      exact ⟨[], rest, rfl, fun _ => rfl⟩
    | succ j =>
      rw [List.getElem?_cons_succ] at h
      obtain ⟨pre, post, h1, h2⟩ := ih j l h
      refine ⟨a :: pre, post, by rw [h1]; rfl, ?_⟩
      intro l'
      rw [List.set_cons_succ, h2 l']
      rfl

theorem laneStep_items (k : LaneEvent) (l l' : Lane) (sent : List (List String))
    (h : laneStep k l = some (l', sent)) : sent ++ laneItems l' = laneItems l := by
  obtain ⟨ts, buf, closed, pc⟩ := l
  cases k <;> cases pc <;> cases ts <;> cases buf <;> cases closed <;>
    simp [laneStep] at h <;> obtain ⟨rfl, rfl⟩ := h <;> simp [laneItems]

theorem laneStep_measure (k : LaneEvent) (l l' : Lane) (sent : List (List String))
    (h : laneStep k l = some (l', sent)) : laneMeasure l = laneMeasure l' + 1 := by
  obtain ⟨ts, buf, closed, pc⟩ := l
  cases k <;> cases pc <;> cases ts <;> cases buf <;> cases closed <;>
    simp [laneStep] at h <;> obtain ⟨rfl, rfl⟩ := h <;> simp [laneMeasure] <;> omega

theorem laneStep_notDone (k : LaneEvent) (l l' : Lane) (sent : List (List String))
    (hok : laneOk l) (h : laneStep k l = some (l', sent)) :
    notDone l = 1 ∧ notDone l' = if k = .exit then 0 else 1 := by
  obtain ⟨ts, buf, closed, pc⟩ := l
  cases k <;> cases pc <;> cases ts <;> cases buf <;> cases closed <;>
    simp [laneStep] at h <;> obtain ⟨rfl, rfl⟩ := h <;> simp [notDone, laneOk] at hok ⊢

theorem laneStep_ok (k : LaneEvent) (l l' : Lane) (sent : List (List String))
    (hok : laneOk l) (h : laneStep k l = some (l', sent)) : laneOk l' := by
  obtain ⟨ts, buf, closed, pc⟩ := l
  cases k <;> cases pc <;> cases ts <;> cases buf <;> cases closed <;>
    simp [laneStep] at h <;> obtain ⟨rfl, rfl⟩ := h <;> simp [laneOk] at hok ⊢

theorem mergeStep_lane (s s' : MergeState) (i : Nat) (k : LaneEvent)
    (h : mergeStep s (.lane i k) = some s') :
    ∃ l l' sent pre post, laneStep k l = some (l', sent) ∧ s.lanes = pre ++ l :: post ∧
      s' = { lanes := pre ++ l' :: post,
             wg := if k = .exit then s.wg - 1 else s.wg,
             out := s.out ++ sent,
             outClosed := s.outClosed,
             panicked := s.panicked || (s.outClosed && !sent.isEmpty)
               || (decide (k = .exit) && decide (s.wg ≤ 0)) } := by
  simp only [mergeStep] at h
  cases hl : s.lanes[i]? with
  | none => rw [hl] at h; simp at h
  | some l =>
    rw [hl] at h
    simp only at h
    cases hs : laneStep k l with
    | none => rw [hs] at h; simp at h
    | some p =>
      obtain ⟨l', sent⟩ := p
      rw [hs] at h
      simp only [Option.some.injEq] at h
      obtain ⟨pre, post, h1, h2⟩ := lanes_split s.lanes i l hl
      refine ⟨l, l', sent, pre, post, hs, h1, ?_⟩
      rw [← h, h2 l']

theorem mergeStep_inv (inputs : List (List (List String))) (s s' : MergeState) (e : MergeEvent)
    (hI : mergeInv inputs s) (h : mergeStep s e = some s') : mergeInv inputs s' := by
  obtain ⟨i1, i2, i3, i4, i5⟩ := hI
  cases e with
  | closeOut =>
    simp only [mergeStep] at h
    split at h
    · next hc =>
      simp only [Option.some.injEq] at h
      subst h
      exact ⟨i1, i2, i3, i4, fun _ => hc.1⟩
    · simp at h
  | lane i k =>
    obtain ⟨l, l', sent, pre, post, hs, hl, rfl⟩ := mergeStep_lane s s' i k h
    have hok : laneOk l := i4 l (by rw [hl]; simp)
    obtain ⟨n1, n2⟩ := laneStep_notDone k l l' sent hok hs
    have hsum : (s.lanes.map notDone).sum
        = (pre.map notDone).sum + 1 + (post.map notDone).sum := by
      rw [hl]
      simp only [List.map_append, List.map_cons, List.sum_append, List.sum_cons, n1]
      omega
    have hsum' : ((pre ++ l' :: post).map notDone).sum
        = (pre.map notDone).sum + (if k = .exit then 0 else 1) + (post.map notDone).sum := by
      simp only [List.map_append, List.map_cons, List.sum_append, List.sum_cons, n2]
      omega
    have hwg : 1 ≤ s.wg := by
      rw [i3]
      omega
    have hopen : s.outClosed = false := by
      cases hc : s.outClosed with
      | false => rfl
      | true => have := i5 hc; omega
    refine ⟨?_, ?_, ?_, ?_, ?_⟩
    · show (s.panicked || (s.outClosed && !sent.isEmpty)
        || (decide (k = .exit) && decide (s.wg ≤ 0))) = false
      have : ¬ s.wg ≤ 0 := by omega
      simp [i1, hopen, this]
    · show ((s.out ++ sent) ++ (pre ++ l' :: post).flatMap laneItems).Perm inputs.flatten
      refine List.Perm.trans ?_ i2
      rw [hl]
      simp only [List.flatMap_append, List.flatMap_cons, List.append_assoc]
      apply List.Perm.append_left
      rw [← laneStep_items k l l' sent hs]
      simp only [List.append_assoc]
      rw [← List.append_assoc sent, ← List.append_assoc (pre.flatMap laneItems)]
      exact List.Perm.append_right _ List.perm_append_comm
    · show (if k = .exit then s.wg - 1 else s.wg)
        = (((pre ++ l' :: post).map notDone).sum : Nat)
      rw [hsum']
      split <;> simp only [if_true, if_false] at * <;> omega
    · intro x hx
      show laneOk x
      have hx' : x ∈ pre ++ l' :: post := hx
      rcases List.mem_append.1 hx' with hp | hp
      · exact i4 x (by rw [hl]; exact List.mem_append_left _ hp)
      · rcases List.mem_cons.1 hp with rfl | hp
        · exact laneStep_ok k l x sent hok hs
        · exact i4 x (by rw [hl]; exact List.mem_append_right _ (List.mem_cons_of_mem _ hp))
    · intro hc
      have hc' : s.outClosed = true := hc
      rw [hopen] at hc'
      exact absurd hc' (by simp)

theorem runMerge_inv (inputs : List (List (List String))) :
    ∀ (es : List MergeEvent) (s s' : MergeState), mergeInv inputs s →
      runMerge s es = some s' → mergeInv inputs s' := by
  intro es
  induction es with
  | nil =>
    intro s s' hI h
    simp only [runMerge, Option.some.injEq] at h
    subst h
    exact hI
  | cons e rest ih =>
    intro s s' hI h
    rw [runMerge] at h
    cases hs : mergeStep s e with
    | none => rw [hs] at h; simp at h
    | some s1 =>
      rw [hs] at h
      exact ih s1 s' (mergeStep_inv inputs s s1 e hI hs) h

theorem mergeStep_measure (s s' : MergeState) (e : MergeEvent) (h : mergeStep s e = some s') :
    mergeMeasure s = mergeMeasure s' + 1 := by
  cases e with
  | closeOut =>
    simp only [mergeStep] at h
    split at h
    · next hc =>
      simp only [Option.some.injEq] at h
      subst h
      simp [mergeMeasure, hc.2]
    · simp at h
  | lane i k =>
    obtain ⟨l, l', sent, pre, post, hs, hl, rfl⟩ := mergeStep_lane s s' i k h
    have hm := laneStep_measure k l l' sent hs
    unfold mergeMeasure
    rw [hl]
    simp only [List.map_append, List.map_cons, List.sum_append, List.sum_cons, hm]
    omega

theorem runMerge_measure : ∀ (es : List MergeEvent) (s s' : MergeState),
    runMerge s es = some s' → mergeMeasure s = mergeMeasure s' + es.length := by
  intro es
  induction es with
  | nil =>
    intro s s' h
    simp only [runMerge, Option.some.injEq] at h
    subst h
    rfl
  | cons e rest ih =>
    intro s s' h
    rw [runMerge] at h
    cases hs : mergeStep s e with
    | none => rw [hs] at h; simp at h
    | some s1 =>
      rw [hs] at h
      have h1 := mergeStep_measure s s1 e hs
      have h2 := ih s1 s' h
      simp only [List.length_cons]
      omega

theorem mergeInit_inv (inputs : List (List (List String))) : mergeInv inputs (mergeInit inputs) := by
  refine ⟨rfl, ?_, ?_, ?_, ?_⟩
  · have : (mergeInit inputs).lanes.flatMap laneItems = inputs.flatten := by
      unfold mergeInit
      induction inputs with
      | nil => rfl
      | cons a rest ih =>
        simp only [List.map_cons, List.flatMap_cons, List.flatten_cons] at ih ⊢
        rw [ih]
        simp [laneItems]
    show ([] ++ (mergeInit inputs).lanes.flatMap laneItems).Perm inputs.flatten
    rw [this]
    exact List.Perm.refl _
  · show ((inputs.length : Nat) : Int) = (((mergeInit inputs).lanes.map notDone).sum : Nat)
    congr 1
    unfold mergeInit
    induction inputs with
    | nil => rfl
    | cons a rest ih =>
      simp only [List.map_cons, List.sum_cons, List.length_cons] at ih ⊢
      rw [← ih]
      simp [notDone]
      omega
  · intro l hl
    unfold mergeInit at hl
    obtain ⟨items, _, rfl⟩ := List.mem_map.1 hl
    simp [laneOk]
  · intro h
    exact absurd h (by simp [mergeInit])

theorem mergeInit_measure (inputs : List (List (List String))) :
    mergeMeasure (mergeInit inputs) = 3 * inputs.flatten.length + 2 * inputs.length + 1 := by
  unfold mergeMeasure mergeInit
  simp only [Bool.false_eq_true, if_false]
  congr 1
  induction inputs with
  | nil => rfl
  | cons a rest ih =>
    simp only [List.map_cons, List.sum_cons, List.flatten_cons, List.length_append,
      List.length_cons] at ih ⊢
    rw [ih]
    simp [laneMeasure]
    omega

theorem mergeInv_closed (inputs : List (List (List String))) (s : MergeState)
    (hI : mergeInv inputs s) (hc : s.outClosed = true) :
    (∀ l ∈ s.lanes, l.closed = true ∧ l.pc = .done) ∧ s.out.Perm inputs.flatten := by
  obtain ⟨_, i2, i3, i4, i5⟩ := hI
  have hz : (s.lanes.map notDone).sum = 0 := by
    have := i5 hc
    omega
  have hdone : ∀ l ∈ s.lanes, l.pc = .done := by
    intro l hl
    have h0 : notDone l = 0 := by
      have hle := List.single_le_sum (fun x _ => Nat.zero_le x) (notDone l)
        (List.mem_map.2 ⟨l, hl, rfl⟩)
      omega
    unfold notDone at h0
    by_contra hne
    rw [if_neg hne] at h0
    exact absurd h0 (by decide)
  have hnil : s.lanes.flatMap laneItems = [] := by
    rw [List.flatMap_eq_nil_iff]
    intro l hl
    obtain ⟨o1, o2⟩ := i4 l hl
    have hd := hdone l hl
    obtain ⟨c1, c2⟩ := o2 hd
    have c3 := o1 c1
    simp [laneItems, hd, c2, c3]
  refine ⟨fun l hl => ⟨((i4 l hl).2 (hdone l hl)).1, hdone l hl⟩, ?_⟩
  rw [hnil, List.append_nil] at i2
  exact i2

theorem lane_can_step (l : Lane) (h : l.pc ≠ .done) : ∃ k p, laneStep k l = some p := by
  obtain ⟨ts, buf, closed, pc⟩ := l
  cases pc with
  | done => exact absurd rfl h
  | sending x => exact ⟨.send, _, rfl⟩
  | ranging =>
    cases buf with
    | cons x rest => exact ⟨.recv, _, rfl⟩
    | nil =>
      cases closed with
      | true => exact ⟨.exit, _, rfl⟩
      | false =>
        cases ts with
        | nil => exact ⟨.closeIn, _, rfl⟩
        | cons x rest => exact ⟨.produce, _, rfl⟩

theorem mergeInv_progress (inputs : List (List (List String))) (s : MergeState)
    (hI : mergeInv inputs s) (hc : s.outClosed = false) : ∃ e s', mergeStep s e = some s' := by
  obtain ⟨_, _, i3, _, _⟩ := hI
  by_cases hw : s.wg = 0
  · refine ⟨.closeOut, { s with outClosed := true }, ?_⟩
    simp [mergeStep, hw, hc]
  · have hex : ∃ l ∈ s.lanes, l.pc ≠ .done := by
      by_contra hall
      push_neg at hall
      have : (s.lanes.map notDone).sum = 0 := by
        apply List.sum_eq_zero
        intro x hx
        obtain ⟨l, hl, rfl⟩ := List.mem_map.1 hx
        simp [notDone, hall l hl]
      rw [this] at i3
      exact hw (by simpa using i3)
    obtain ⟨l, hl, hne⟩ := hex
    obtain ⟨i, hi, hget⟩ := List.getElem_of_mem hl
    obtain ⟨k, p, hk⟩ := lane_can_step l hne
    have hget' : s.lanes[i]? = some l := by
      rw [List.getElem?_eq_getElem hi, hget]
    obtain ⟨l', sent⟩ := p
    have hsome : (mergeStep s (.lane i k)).isSome = true := by
      simp only [mergeStep, hget', hk, Option.isSome_some]
    obtain ⟨s', hs'⟩ := Option.isSome_iff_exists.1 hsome
    exact ⟨.lane i k, s', hs'⟩

theorem mergeStep_length (s s' : MergeState) (e : MergeEvent) (h : mergeStep s e = some s') :
    s'.lanes.length = s.lanes.length := by
  cases e with
  | closeOut =>
    simp only [mergeStep] at h
    split at h
    · simp only [Option.some.injEq] at h
      subst h
      rfl
    · simp at h
  | lane i k =>
    obtain ⟨l, l', sent, pre, post, _, hl, rfl⟩ := mergeStep_lane s s' i k h
    rw [hl]
    simp

theorem runMerge_length : ∀ (es : List MergeEvent) (s s' : MergeState),
    runMerge s es = some s' → s'.lanes.length = s.lanes.length := by
  intro es
  induction es with
  | nil =>
    intro s s' h
    simp only [runMerge, Option.some.injEq] at h
    subst h
    rfl
  | cons e rest ih =>
    intro s s' h
    rw [runMerge] at h
    cases hs : mergeStep s e with
    | none => rw [hs] at h; simp at h
    | some s1 =>
      rw [hs] at h
      rw [ih s1 s' h, mergeStep_length s s1 e hs]

/-- C13 (merge completeness): for every number of input streams and every finite content
`inputs`, in every run of the goroutines of `merge` (every interleaving of producers sending
and closing, `output` goroutines receiving, forwarding and calling `wg.Done()`, and the closing
goroutine) no goroutine panics and the values read from `out`, those in transit and those
still to come are together a permutation of all inputs; once `out` is closed every input
channel is closed, every `output` goroutine is done and the values read from `out` are a
permutation of all inputs (each item exactly once); as long as `out` is not closed some
goroutine can move, and a run has at most `3 * (number of items) + 2 * K + 1` events, so every
run that cannot go on has closed `out`. -/
theorem merge_complete (inputs : List (List (List String))) (es : List MergeEvent)
    (s : MergeState) (h : runMerge (mergeInit inputs) es = some s) :
    s.panicked = false ∧
      (s.out ++ s.lanes.flatMap laneItems).Perm inputs.flatten ∧
      (s.outClosed = true →
        (∀ l ∈ s.lanes, l.closed = true ∧ l.pc = .done) ∧ s.out.Perm inputs.flatten) ∧
      (s.outClosed = false → ∃ e s', mergeStep s e = some s') ∧
      es.length ≤ 3 * inputs.flatten.length + 2 * inputs.length + 1 ∧
      s.lanes.length = inputs.length := by
  have hI := runMerge_inv inputs es _ s (mergeInit_inv inputs) h
  have hm := runMerge_measure es _ s h
  rw [mergeInit_measure] at hm
  refine ⟨hI.1, hI.2.1, mergeInv_closed inputs s hI, mergeInv_progress inputs s hI, by omega, ?_⟩
  rw [runMerge_length es _ s h]
  simp [mergeInit]

theorem merge_complete_witness :
    runMerge (mergeInit [[["a"]], [["b"], ["c"]]])
        [.lane 1 .produce, .lane 1 .recv, .lane 1 .send, .lane 0 .produce, .lane 1 .produce,
          .lane 1 .closeIn, .lane 0 .recv, .lane 1 .recv, .lane 0 .send, .lane 1 .send,
          .lane 1 .exit, .lane 0 .closeIn, .lane 0 .exit, .closeOut]
      = some { lanes := [{ toSend := [], buf := [], closed := true, pc := .done },
                 { toSend := [], buf := [], closed := true, pc := .done }],
               wg := 0, out := [["b"], ["a"], ["c"]], outClosed := true, panicked := false } ∧
    ([["b"], ["a"], ["c"]] : List (List String)).Perm
      ([[["a"]], [["b"], ["c"]]] : List (List (List String))).flatten := by
  have h : runMerge (mergeInit [[["a"]], [["b"], ["c"]]])
        [.lane 1 .produce, .lane 1 .recv, .lane 1 .send, .lane 0 .produce, .lane 1 .produce,
          .lane 1 .closeIn, .lane 0 .recv, .lane 1 .recv, .lane 0 .send, .lane 1 .send,
          .lane 1 .exit, .lane 0 .closeIn, .lane 0 .exit, .closeOut]
      = some { lanes := [{ toSend := [], buf := [], closed := true, pc := .done },
                 { toSend := [], buf := [], closed := true, pc := .done }],
               wg := 0, out := [["b"], ["a"], ["c"]], outClosed := true, panicked := false } := by
    decide
  exact ⟨h, ((merge_complete _ _ _ h).2.2.1 rfl).2⟩

end NrProblem
